import Mathlib

/-!
# Verification of the Robin Hood cell table (`src/cell_table.c`)

This file is a shallow embedding of the open-addressing hash table with
Robin Hood displacement implemented in `src/cell_table.c`, together with
proofs and refutations of the specified properties.

Modelling conventions:
* C `unsigned int` arithmetic is `Nat` with explicit `% 2^32` where overflow
  can occur; bit masking (`&`) is `Nat.land` (`&&&`), exactly as in the source.
* The bucket array is a `List (Option CellTableElem)`; `none` models
  `is_occpuied == 0` (the key/value/hash stored in an unoccupied C slot are
  never read by the source, so they are not modelled).
* Heap allocation failure of `calloc` in `rehash` is an external event; it is
  modelled by the `allocOk` parameter of `cell_table_put`.
* The C loops in `cell_table_put`/`rehash` (and the backward-shift loop of
  deletion) have no iteration bound and do not terminate on degenerate
  states (e.g. insertion into a table with no empty slot).  Each such loop is
  modelled with an explicit fuel; `none` means the C loop would not have
  terminated within that many iterations (for these linear-probing walks,
  not within `capacity` steps means never, since the walk is periodic).
* `Point2D` is used by `cell_table.c` but its definition is absent from the
  sources (the header present in the repository predates this variant); it
  is modelled per its uses (`p->x`, `p->y`, hashing of `sizeof(Point2D)`
  bytes) as two 32-bit integers laid out little-endian.
* `Cell *` values are opaque heap pointers; modelled as an abstract address.
-/

/-- 2D point key of the cell table.  The definition is missing from the
sources; modelled as two C `int` coordinates. -/
structure Point2D where
  x : Int
  y : Int
deriving DecidableEq, Repr

/-- A `Cell *` value: an opaque heap address. -/
abbrev Cell := Nat

/-- `#define FNV_32_PRIME 16777619u` -/
def FNV_32_PRIME : Nat := 16777619

/-- `#define FNV_32_BASIS 2166136261u` -/
def FNV_32_BASIS : Nat := 2166136261

/-- `hash_bytes`: FNV-1 over a byte sequence, in 32-bit unsigned arithmetic:
`hash = (hash * FNV_32_PRIME) ^ *_data++`. -/
def hash_bytes (data : List Nat) : Nat :=
  data.foldl (fun h b => ((h * FNV_32_PRIME) % 2 ^ 32) ^^^ b) FNV_32_BASIS

/-- The four little-endian bytes of a 32-bit C `int`. -/
def int32_bytes (n : Int) : List Nat :=
  let m := (n % 2 ^ 32).toNat
  [m % 2 ^ 8, m / 2 ^ 8 % 2 ^ 8, m / 2 ^ 16 % 2 ^ 8, m / 2 ^ 24 % 2 ^ 8]

/-- `hash_point2d`: FNV-1 hash of the `sizeof(Point2D)` bytes of a point
(two 32-bit ints, little-endian). -/
def hash_point2d (p : Point2D) : Nat :=
  hash_bytes (int32_bytes p.x ++ int32_bytes p.y)

/-- `point2d_cmp`: three-way comparison,
`dx = p1->x - p2->x; return (dx == 0) ? (p1->y - p2->y) : dx;`. -/
def point2d_cmp (p1 p2 : Point2D) : Int :=
  let dx := p1.x - p2.x
  if dx = 0 then p1.y - p2.y else dx

/-- `is_pow2`: `n != 0 && (n & (n - 1)) == 0`. -/
def is_pow2 (n : Nat) : Bool :=
  n != 0 && (n &&& (n - 1)) == 0

/-- The loop body of `ceil_pow2`: `while (!is_pow2(n)) n = n & (n - 1);`.
The C loop never terminates for `n = 0`; the fuel records the remaining
iterations the model is willing to run (`n` iterations always suffice for
`n > 0`, since each one strictly decreases `n`). -/
def ceil_pow2_loop (fuel n : Nat) : Nat :=
  match fuel with
  | 0 => n
  | fuel + 1 => if is_pow2 n then n else ceil_pow2_loop fuel (n &&& (n - 1))

/-- `ceil_pow2` (documented in the source as rounding *up* to the next power
of two). -/
def ceil_pow2 (n : Nat) : Nat :=
  ceil_pow2_loop n n

/-- `bucket_idx`: `hash_val & (num_buckets - 1)`. -/
def bucket_idx (hash_val : Nat) (num_buckets : Nat) : Nat :=
  hash_val &&& (num_buckets - 1)

/-- An occupied slot of the bucket array: key, value and the cached hash
(`entry.key`, `entry.value`, `hash_val` of `CellTableElem`). -/
structure CellTableElem where
  key : Point2D
  value : Cell
  hash_val : Nat
deriving DecidableEq, Repr

/-- The table: bucket array, bucket count, element count and load factor.
`load_factor` is a C `float`; all loads actually compared against it are
exact in binary floating point (`count` divided by a power of two), so the
comparison is modelled exactly on `ℚ`. -/
structure CellTable where
  buckets : List (Option CellTableElem)
  num_buckets : Nat
  num_elems : Nat
  load_factor : ℚ
deriving DecidableEq, Repr

/-- `probe`: `(idx + 1) & (num_buckets - 1)` — linear probing. -/
def probe (idx num_buckets : Nat) : Nat :=
  (idx + 1) &&& (num_buckets - 1)

/-- `probe_dist`: distance between the actual bucket of an element and the
ideal bucket of its cached hash:
`(idx + num_buckets - bucket_idx(elem->hash_val, num_buckets)) & (num_buckets - 1)`. -/
def probe_dist (elem : CellTableElem) (idx num_buckets : Nat) : Nat :=
  (idx + num_buckets - bucket_idx elem.hash_val num_buckets) &&& (num_buckets - 1)

/-- The loop of `find_elem`.  The C guard is
`while (elem->is_occpuied && dist < tbl->num_buckets)`; `fuel` is
`num_buckets - dist`, so `fuel = 0` is exactly `dist ≥ num_buckets`.
Returns the index and contents of the found element. -/
def find_elem_aux (t : CellTable) (key : Point2D) (idx dist fuel : Nat) :
    Option (Nat × CellTableElem) :=
  match fuel with
  | 0 => none
  | fuel + 1 =>
    match t.buckets.getD idx none with
    | none => none
    | some elem =>
      if point2d_cmp elem.key key = 0 then some (idx, elem)
      else if probe_dist elem idx t.num_buckets < dist then none
      else find_elem_aux t key (probe idx t.num_buckets) (dist + 1) fuel

/-- `find_elem`: look up by key starting at `start_idx`. -/
def find_elem (t : CellTable) (key : Point2D) (start_idx : Nat) :
    Option (Nat × CellTableElem) :=
  find_elem_aux t key start_idx 0 t.num_buckets

/-- `current_load`: `(float)tbl->num_elems / tbl->num_buckets` (exact, since
`num_buckets` is a power of two). -/
def current_load (t : CellTable) : ℚ :=
  (t.num_elems : ℚ) / (t.num_buckets : ℚ)

/-- The growth test `current_load(tbl) > tbl->load_factor` of
`cell_table_put`, written as the equivalent integer cross-multiplication
(see `load_exceeded_iff`; the two agree whenever `num_buckets > 0`, and a
table with zero buckets makes the C expression divide by zero).  This form
evaluates inside the kernel, which `ℚ` normalisation does not. -/
def load_exceeded (t : CellTable) : Prop :=
  t.load_factor.num * t.num_buckets < t.num_elems * t.load_factor.den

instance (t : CellTable) : Decidable (load_exceeded t) := by
  unfold load_exceeded; infer_instance

/-- The Robin Hood insertion walk.  This identical loop appears twice in the
source (in `cell_table_put` lines 350–362 and in `rehash` lines 267–279):
starting at `idx` with running distance `dist` and carried element
`elem_insert`, at an occupied slot swap the carried element with the
resident if the resident's probe distance is smaller (`dist = dist_elem`
after the swap), then advance; write the carried element into the first
empty slot.  `fuel = none` models the C loop failing to terminate. -/
def rh_insert_loop (cap : Nat) (bs : List (Option CellTableElem))
    (elem_insert : CellTableElem) (idx dist fuel : Nat) :
    Option (List (Option CellTableElem)) :=
  match fuel with
  | 0 => none
  | fuel + 1 =>
    match bs.getD idx none with
    | none => some (bs.set idx (some elem_insert))
    | some elem =>
      let dist_elem := probe_dist elem idx cap
      if dist_elem < dist then
        rh_insert_loop cap (bs.set idx (some elem_insert)) elem
          (probe idx cap) (dist_elem + 1) fuel
      else
        rh_insert_loop cap bs elem_insert (probe idx cap) (dist + 1) fuel

/-- The element-wise walk of `rehash` over the old bucket array, in index
order, re-inserting every occupied element into the accumulating new array
via the Robin Hood walk started at `bucket_idx(elem->hash_val, new_num_buckets)`. -/
def rehash_loop (new_cap : Nat) (old acc : List (Option CellTableElem)) :
    Option (List (Option CellTableElem)) :=
  match old with
  | [] => some acc
  | none :: rest => rehash_loop new_cap rest acc
  | some elem :: rest =>
    match rh_insert_loop new_cap acc elem
        (bucket_idx elem.hash_val new_cap) 0 new_cap with
    | none => none
    | some acc' => rehash_loop new_cap rest acc'

/-- `rehash`: allocate a zeroed array of twice the size (`calloc`), re-insert
every occupied element, install the new array.  `num_elems` is not touched.
(`calloc` failure is decided by the caller's `allocOk`, see `cell_table_put`.) -/
def rehash (t : CellTable) : Option CellTable :=
  let new_num_buckets := t.num_buckets * 2
  match rehash_loop new_num_buckets t.buckets
      (List.replicate new_num_buckets none) with
  | none => none
  | some new_buckets =>
    some { t with num_buckets := new_num_buckets, buckets := new_buckets }

/-- `cell_table_create`.  Rejects `load_factor <= 0 || load_factor >= 1`.
For `num_buckets = 0` the C `ceil_pow2` loop never terminates, so the model
returns no table.  (`malloc`/`calloc` failures also yield `NULL` in C; the
model only represents the successfully created table.) -/
def cell_table_create (num_buckets : Nat) (load_factor : ℚ) :
    Option CellTable :=
  if load_factor ≤ 0 ∨ 1 ≤ load_factor then none
  else if num_buckets = 0 then none
  else
    let nb := ceil_pow2 num_buckets
    some { buckets := List.replicate nb none, num_buckets := nb,
           num_elems := 0, load_factor := load_factor }

/-- The tail of `cell_table_put` after the update check and the growth
check: build `elem_insert` from key, value and hash, run the Robin Hood
walk from `idx` (note: `idx` is whatever the caller computed *before* any
growth), then `tbl->num_elems++`. -/
def put_insert (t : CellTable) (key : Point2D) (hash_val : Nat) (value : Cell)
    (idx : Nat) : Option (CellTable × Bool) :=
  let elem_insert : CellTableElem :=
    { key := key, value := value, hash_val := hash_val }
  match rh_insert_loop t.num_buckets t.buckets elem_insert idx 0
      t.num_buckets with
  | none => none
  | some bs =>
    some ({ t with buckets := bs, num_elems := t.num_elems + 1 }, true)

/-- `cell_table_put`.  Computes `hash_val` and `idx` (with the *current*
mask), first tries to update an existing element in place, then grows if
`current_load(tbl) > tbl->load_factor` (returning failure with the table
untouched if allocation fails, i.e. `allocOk = false`), and finally inserts
starting from `idx` — the index computed before any growth, exactly as in
the source.  The result is the table after the call plus the success flag. -/
def cell_table_put (allocOk : Bool) (t : CellTable) (key : Point2D)
    (value : Cell) : Option (CellTable × Bool) :=
  let hash_val := hash_point2d key
  let idx := bucket_idx hash_val t.num_buckets
  match find_elem t key idx with
  | some (fidx, elem) =>
    some ({ t with
            buckets := t.buckets.set fidx (some { elem with value := value }) },
          true)
  | none =>
    if load_exceeded t then
      if allocOk then
        match rehash t with
        | none => none
        | some t1 => put_insert t1 key hash_val value idx
      else some (t, false)
    else put_insert t key hash_val value idx

/-- `cell_table_contains`. -/
def cell_table_contains (t : CellTable) (key : Point2D) : Bool :=
  (find_elem t key (bucket_idx (hash_point2d key) t.num_buckets)).isSome

/-- `cell_table_get`: the value of the found element, or `none` (NULL). -/
def cell_table_get (t : CellTable) (key : Point2D) : Option Cell :=
  match find_elem t key (bucket_idx (hash_point2d key) t.num_buckets) with
  | none => none
  | some (_, elem) => some elem.value

/-- `cell_table_clear`: mark every bucket free, reset the element count. -/
def cell_table_clear (t : CellTable) : CellTable :=
  { t with buckets := t.buckets.map (fun _ => none), num_elems := 0 }

/-- `cell_table_size`. -/
def cell_table_size (t : CellTable) : Nat :=
  t.num_elems

/-- Modelled from the spec: the backward-shift loop of deletion (§4.6).
`cell_table_remove` is an explicit unfinished TODO in the source (it returns
`NULL` without modifying the table), and the spec supplies the completed
algorithm: repeatedly examine the slot after the hole; if it is empty or
already sits in its ideal bucket (probe distance 0), mark the hole empty and
stop; otherwise shift that element back into the hole and advance the hole.
`fuel = none` models the loop not terminating within `fuel` iterations. -/
def backward_shift_loop (cap : Nat) (bs : List (Option CellTableElem))
    (hole fuel : Nat) : Option (List (Option CellTableElem)) :=
  match fuel with
  | 0 => none
  | fuel + 1 =>
    let j := probe hole cap
    match bs.getD j none with
    | none => some (bs.set hole none)
    | some elem =>
      if probe_dist elem j cap = 0 then some (bs.set hole none)
      else backward_shift_loop cap (bs.set hole (some elem)) j fuel

/-- Modelled from the spec: `cell_table_remove` with backward-shift deletion
(§4.6), completing the TODO stub in the source.  Locate the slot via the
lookup algorithm (§4.3 = `find_elem`); if absent return `NULL` (`none`) and
leave the table unchanged; otherwise run the backward shift from the found
slot, decrement `count`, and return the removed value. -/
def cell_table_remove (t : CellTable) (key : Point2D) :
    Option (CellTable × Option Cell) :=
  match find_elem t key (bucket_idx (hash_point2d key) t.num_buckets) with
  | none => some (t, none)
  | some (idx, elem) =>
    match backward_shift_loop t.num_buckets t.buckets idx t.num_buckets with
    | none => none
    | some bs =>
      some ({ t with buckets := bs, num_elems := t.num_elems - 1 },
            some elem.value)

/-- The load factor `0.75f` used by the simulation layer, in normal form
(so that it evaluates in the kernel). -/
def threeQuarters : ℚ := ⟨3, 4, by decide, by norm_num [Nat.Coprime]⟩

/-- Folds a sequence of `cell_table_put`s (with allocation succeeding),
keeping the resulting table only when every put reports success. -/
def put_seq (t : Option CellTable) (ops : List (Point2D × Cell)) :
    Option CellTable :=
  ops.foldl
    (fun acc kv => acc.bind fun tb =>
      match cell_table_put true tb kv.1 kv.2 with
      | some (t', true) => some t'
      | _ => none) t

/-- Number of occupied slots of a bucket array. -/
def numOcc (bs : List (Option CellTableElem)) : Nat :=
  bs.countP (fun s => s.isSome)

/-- Number of occupied slots of a bucket array holding the given key. -/
def countKey (bs : List (Option CellTableElem)) (k : Point2D) : Nat :=
  bs.countP (fun s =>
    match s with
    | some e => e.key = k
    | none => false)

/-- Every occupied slot caches exactly the FNV hash of its own key. -/
def hashOk (bs : List (Option CellTableElem)) : Prop :=
  ∀ e : CellTableElem, some e ∈ bs → e.hash_val = hash_point2d e.key

/-- The Robin Hood invariant in the form the algorithms actually preserve:
every occupied slot that is not in its ideal bucket is directly preceded by
an occupied slot whose probe distance is at least one less — equivalently,
walking forward through consecutive occupied slots the probe distance grows
by at most one per step, and a slot directly following an empty slot is in
its ideal bucket. -/
def rhInv (bs : List (Option CellTableElem)) (cap : Nat) : Prop :=
  ∀ i, i < cap → ∀ e, bs.getD i none = some e → 0 < probe_dist e i cap →
    ∃ ep, bs.getD ((i + cap - 1) % cap) none = some ep ∧
      probe_dist e i cap ≤ probe_dist ep ((i + cap - 1) % cap) cap + 1

/-- The Robin Hood invariant as claim C4 states it: walking forward through
consecutive occupied slots (the probe step of the source), probe distances
are non-decreasing until an empty slot is reached. -/
def probe_nondecreasing (t : CellTable) : Prop :=
  ∀ i, i < t.num_buckets → ∀ e e', t.buckets.getD i none = some e →
    t.buckets.getD (probe i t.num_buckets) none = some e' →
    probe_dist e i t.num_buckets ≤
      probe_dist e' (probe i t.num_buckets) t.num_buckets

/-- Well-formedness of a table state: structural bookkeeping (array length,
power-of-two capacity, element count, load factor in `(0,1)`), correctly
cached hashes, at most one slot per key, the Robin Hood invariant, and — for
a completely full table — the existence of an element sitting in its ideal
bucket (which the backward shift of deletion relies on). -/
structure WF (t : CellTable) : Prop where
  hlen : t.buckets.length = t.num_buckets
  hpow : ∃ k, t.num_buckets = 2 ^ k
  hcount : numOcc t.buckets = t.num_elems
  hlf0 : 0 < t.load_factor
  hlf1 : t.load_factor < 1
  hhash : hashOk t.buckets
  huniq : ∀ k, countKey t.buckets k ≤ 1
  hrh : rhInv t.buckets t.num_buckets
  hfull : t.num_elems = t.num_buckets →
    ∃ i, i < t.num_buckets ∧ ∃ e, t.buckets.getD i none = some e ∧
      probe_dist e i t.num_buckets = 0

/-- Table states reachable by `cell_table_create`, successful
`cell_table_put` (growth included) and `cell_table_clear` — the operations
the source itself implements. -/
inductive Reachable : CellTable → Prop where
  | create : ∀ n lf t, cell_table_create n lf = some t → Reachable t
  | put : ∀ t allocOk key value t' ok, Reachable t →
      cell_table_put allocOk t key value = some (t', ok) → Reachable t'
  | clear : ∀ t, Reachable t → Reachable (cell_table_clear t)

/-- Table states reachable from `cell_table_create` by `cell_table_put`s
that do not take the growth path (either the key is already present — the
update branch returns before the load check — or the load is within the
threshold), by deletions per the spec's backward-shift algorithm, and by
`cell_table_clear`. -/
inductive ReachableNG : CellTable → Prop where
  | create : ∀ n lf t, cell_table_create n lf = some t → ReachableNG t
  | put : ∀ t allocOk key value t', ReachableNG t →
      cell_table_put allocOk t key value = some (t', true) →
      (¬ load_exceeded t ∨
        (find_elem t key (bucket_idx (hash_point2d key) t.num_buckets)).isSome) →
      ReachableNG t'
  | remove : ∀ t key t' v, ReachableNG t →
      cell_table_remove t key = some (t', v) → ReachableNG t'
  | clear : ∀ t, ReachableNG t → ReachableNG (cell_table_clear t)

/-- Number of loop iterations the `find_elem` walk executes (the walk of
`find_elem_aux`, counting how often the loop body runs). -/
def find_elem_iters (t : CellTable) (key : Point2D) (idx dist fuel : Nat) :
    Nat :=
  match fuel with
  | 0 => 0
  | fuel + 1 =>
    match t.buckets.getD idx none with
    | none => 0
    | some elem =>
      if point2d_cmp elem.key key = 0 then 1
      else if probe_dist elem idx t.num_buckets < dist then 1
      else 1 + find_elem_iters t key (probe idx t.num_buckets) (dist + 1) fuel

/-- A slot at which the backward shift of deletion stops: empty, or holding
an element that sits in its ideal bucket. -/
def stopAt (bs : List (Option CellTableElem)) (cap i : Nat) : Prop :=
  bs.getD i none = none ∨
    ∃ e, bs.getD i none = some e ∧ probe_dist e i cap = 0

/-- Sample keys for the concrete traces (live `Cell` coordinates). -/
def pA : Point2D := { x := 0, y := 0 }

def pB : Point2D := { x := 0, y := 2 }

def pC : Point2D := { x := 0, y := 1 }

def pD : Point2D := { x := 0, y := 9 }

def pE : Point2D := { x := 0, y := 17 }

/-- The empty one-bucket table `cell_table_create(1, 0.75f)`. -/
def tbl1 : CellTable :=
  { buckets := [none], num_buckets := 1, num_elems := 0,
    load_factor := threeQuarters }

/-- The element stored by `put(pA, 10)` (`hash_point2d pA = 2615243109`). -/
def elemA : CellTableElem :=
  { key := pA, value := 10, hash_val := 2615243109 }

/-- `tbl1` after `put(pA, 10)`: a full one-bucket table whose load `1`
exceeds the load factor `3/4`. -/
def tbl1A : CellTable :=
  { buckets := [some elemA], num_buckets := 1, num_elems := 1,
    load_factor := threeQuarters }

/-- The empty eight-bucket table `cell_table_create(8, 0.75f)`. -/
def tbl8_0 : CellTable :=
  { buckets := List.replicate 8 none, num_buckets := 8, num_elems := 0,
    load_factor := threeQuarters }

/-- `tbl8_0` after `put(pC, 1)`: `pC` sits in its ideal bucket `2`. -/
def tbl8_1 : CellTable :=
  { buckets := [none, none,
      some { key := pC, value := 1, hash_val := 1559936538 },
      none, none, none, none, none],
    num_buckets := 8, num_elems := 1, load_factor := threeQuarters }

/-- ... after `put(pD, 2)`: `pD` also hashes to bucket `2`, probes to `3`. -/
def tbl8_2 : CellTable :=
  { buckets := [none, none,
      some { key := pC, value := 1, hash_val := 1559936538 },
      some { key := pD, value := 2, hash_val := 1707418562 },
      none, none, none, none],
    num_buckets := 8, num_elems := 2, load_factor := threeQuarters }

/-- ... after `put(pE, 3)`: `pE` also hashes to bucket `2`, probes to `4`. -/
def tbl8_3 : CellTable :=
  { buckets := [none, none,
      some { key := pC, value := 1, hash_val := 1559936538 },
      some { key := pD, value := 2, hash_val := 1707418562 },
      some { key := pE, value := 3, hash_val := 1264972490 },
      none, none, none],
    num_buckets := 8, num_elems := 3, load_factor := threeQuarters }

/-- ... after `put(pA, 4)`: `pA` sits in its ideal bucket `5`, directly
after `pE` whose probe distance is `2`. -/
def tbl8_4 : CellTable :=
  { buckets := [none, none,
      some { key := pC, value := 1, hash_val := 1559936538 },
      some { key := pD, value := 2, hash_val := 1707418562 },
      some { key := pE, value := 3, hash_val := 1264972490 },
      some { key := pA, value := 4, hash_val := 2615243109 },
      none, none],
    num_buckets := 8, num_elems := 4, load_factor := threeQuarters }

/-!
## Theorems

First a toolkit: modular arithmetic for power-of-two capacities, list
bookkeeping for `getD`/`set`/`countP`, then the specifications of the
lookup, insertion, rehash and deletion walks, the well-formedness
preservation results, and finally the claim theorems.
-/

/-- `load_exceeded` is exactly the source's growth test
`current_load(tbl) > tbl->load_factor` (for a table with at least one
bucket). -/
theorem load_exceeded_iff (t : CellTable) (h : 0 < t.num_buckets) :
    load_exceeded t ↔ current_load t > t.load_factor := by
  have hden : (0 : ℚ) < (t.load_factor.den : ℚ) := by
    exact_mod_cast t.load_factor.den_pos
  have hnb : (0 : ℚ) < (t.num_buckets : ℚ) := by exact_mod_cast h
  constructor
  · intro hlt
    have hq : (t.load_factor.num : ℚ) * t.num_buckets <
        (t.num_elems : ℚ) * t.load_factor.den := by exact_mod_cast hlt
    rw [gt_iff_lt, show t.load_factor = (t.load_factor.num : ℚ) / t.load_factor.den
          from (Rat.num_div_den t.load_factor).symm]
    rw [current_load, div_lt_div_iff₀ hden hnb]
    linarith
  · intro hgt
    have hq : (t.load_factor.num : ℚ) * t.num_buckets <
        (t.num_elems : ℚ) * t.load_factor.den := by
      rw [gt_iff_lt, show t.load_factor = (t.load_factor.num : ℚ) / t.load_factor.den
            from (Rat.num_div_den t.load_factor).symm] at hgt
      rw [current_load, div_lt_div_iff₀ hden hnb] at hgt
      linarith
    exact_mod_cast hq

/-! ### Power-of-two arithmetic -/

theorem pow2_of_and_pred_eq_zero :
    ∀ n, n ≠ 0 → n &&& (n - 1) = 0 → ∃ k, n = 2 ^ k := by
  intro n
  induction n using Nat.strong_induction_on with
  | _ n ih =>
    intro hne hand
    rcases Nat.lt_or_ge n 2 with h2 | h2
    · exact ⟨0, by omega⟩
    · have hdiv : (n &&& (n - 1)) / 2 = (n / 2) &&& ((n - 1) / 2) :=
        Nat.and_div_two
      rcases Nat.mod_two_eq_zero_or_one n with he | ho
      · have h1 : (n - 1) / 2 = n / 2 - 1 := by omega
        have h0 : (n / 2) &&& (n / 2 - 1) = 0 := by
          rw [hand, h1] at hdiv; simpa using hdiv.symm
        obtain ⟨k, hk⟩ := ih (n / 2) (by omega) (by omega) h0
        refine ⟨k + 1, ?_⟩
        rw [pow_succ, ← hk]
        omega
      · have h1 : (n - 1) / 2 = n / 2 := by omega
        have h0 : (n / 2) &&& (n / 2) = 0 := by
          rw [hand, h1] at hdiv; simpa using hdiv.symm
        rw [Nat.and_self] at h0
        omega

theorem is_pow2_iff (n : Nat) : is_pow2 n = true ↔ ∃ k, n = 2 ^ k := by
  rw [is_pow2, Bool.and_eq_true, bne_iff_ne, beq_iff_eq]
  constructor
  · rintro ⟨hne, hand⟩
    exact pow2_of_and_pred_eq_zero n hne hand
  · rintro ⟨k, rfl⟩
    refine ⟨by positivity, ?_⟩
    rw [Nat.and_pow_two_sub_one_eq_mod, Nat.mod_self]

theorem ceil_pow2_loop_pow2 :
    ∀ fuel n, 0 < n → n ≤ fuel → is_pow2 (ceil_pow2_loop fuel n) = true := by
  intro fuel
  induction fuel with
  | zero => intro n h1 h2; omega
  | succ fuel ih =>
    intro n h1 h2
    rw [ceil_pow2_loop]
    by_cases hp : is_pow2 n = true
    · simp [hp]
    · rw [if_neg (by simpa using hp)]
      have hle : n &&& (n - 1) ≤ n - 1 := Nat.and_le_right
      have hpos : 0 < n &&& (n - 1) := by
        rcases Nat.eq_zero_or_pos (n &&& (n - 1)) with h0 | h0
        · exfalso
          apply hp
          rw [is_pow2, Bool.and_eq_true, bne_iff_ne, beq_iff_eq]
          exact ⟨by omega, h0⟩
        · exact h0
      exact ih _ hpos (by omega)

theorem ceil_pow2_is_pow2 (n : Nat) (h : 0 < n) :
    ∃ k, ceil_pow2 n = 2 ^ k := by
  rw [← is_pow2_iff]
  exact ceil_pow2_loop_pow2 n n h le_rfl

/-! ### Modular arithmetic for power-of-two capacities -/

theorem cap_pos {cap : Nat} (hp : ∃ j, cap = 2 ^ j) : 0 < cap := by
  obtain ⟨j, rfl⟩ := hp; positivity

theorem bucket_idx_eq_mod (hv : Nat) {cap : Nat} (hp : ∃ j, cap = 2 ^ j) :
    bucket_idx hv cap = hv % cap := by
  obtain ⟨j, rfl⟩ := hp
  rw [bucket_idx, Nat.and_pow_two_sub_one_eq_mod]

theorem bucket_idx_lt (hv : Nat) {cap : Nat} (hp : ∃ j, cap = 2 ^ j) :
    bucket_idx hv cap < cap := by
  rw [bucket_idx_eq_mod hv hp]
  exact Nat.mod_lt _ (cap_pos hp)

theorem probe_eq_mod (i : Nat) {cap : Nat} (hp : ∃ j, cap = 2 ^ j) :
    probe i cap = (i + 1) % cap := by
  obtain ⟨j, rfl⟩ := hp
  rw [probe, Nat.and_pow_two_sub_one_eq_mod]

theorem probe_lt (i : Nat) {cap : Nat} (hp : ∃ j, cap = 2 ^ j) :
    probe i cap < cap := by
  rw [probe_eq_mod i hp]
  exact Nat.mod_lt _ (cap_pos hp)

theorem probe_dist_eq_mod (e : CellTableElem) (i : Nat) {cap : Nat}
    (hp : ∃ j, cap = 2 ^ j) :
    probe_dist e i cap = (i + (cap - e.hash_val % cap)) % cap := by
  have hb : e.hash_val % cap < cap := Nat.mod_lt _ (cap_pos hp)
  obtain ⟨j, hj⟩ := hp
  rw [probe_dist, bucket_idx_eq_mod _ ⟨j, hj⟩,
    show i + cap - e.hash_val % cap = i + (cap - e.hash_val % cap) by omega,
    hj, Nat.and_pow_two_sub_one_eq_mod]

theorem probe_dist_lt (e : CellTableElem) (i : Nat) {cap : Nat}
    (hp : ∃ j, cap = 2 ^ j) : probe_dist e i cap < cap := by
  rw [probe_dist_eq_mod e i hp]
  exact Nat.mod_lt _ (cap_pos hp)

theorem probe_dist_probe (e : CellTableElem) (i : Nat) {cap : Nat}
    (hp : ∃ j, cap = 2 ^ j) :
    probe_dist e (probe i cap) cap = (probe_dist e i cap + 1) % cap := by
  rw [probe_dist_eq_mod e _ hp, probe_dist_eq_mod e i hp, probe_eq_mod i hp,
    Nat.mod_add_mod, Nat.mod_add_mod]
  congr 1
  omega

theorem probe_dist_home (e : CellTableElem) {cap : Nat}
    (hp : ∃ j, cap = 2 ^ j) :
    probe_dist e (bucket_idx e.hash_val cap) cap = 0 := by
  have hb : e.hash_val % cap < cap := Nat.mod_lt _ (cap_pos hp)
  rw [probe_dist_eq_mod e _ hp, bucket_idx_eq_mod _ hp,
    show e.hash_val % cap + (cap - e.hash_val % cap) = cap by omega,
    Nat.mod_self]

theorem home_add_probe_dist (e : CellTableElem) (i : Nat) {cap : Nat}
    (hp : ∃ j, cap = 2 ^ j) (hi : i < cap) :
    (bucket_idx e.hash_val cap + probe_dist e i cap) % cap = i := by
  have hb : e.hash_val % cap < cap := Nat.mod_lt _ (cap_pos hp)
  rw [probe_dist_eq_mod e i hp, bucket_idx_eq_mod _ hp, Nat.add_comm,
    Nat.mod_add_mod,
    show i + (cap - e.hash_val % cap) + e.hash_val % cap = i + cap by omega,
    Nat.add_mod_right, Nat.mod_eq_of_lt hi]

theorem probe_dist_inj (e : CellTableElem) (i j : Nat) {cap : Nat}
    (hp : ∃ m, cap = 2 ^ m) (hi : i < cap) (hj : j < cap)
    (hd : probe_dist e i cap = probe_dist e j cap) : i = j := by
  have h1 := home_add_probe_dist e i hp hi
  have h2 := home_add_probe_dist e j hp hj
  rw [← h1, ← h2, hd]

theorem probe_pred (i : Nat) {cap : Nat} (hp : ∃ j, cap = 2 ^ j)
    (hi : i < cap) : probe ((i + cap - 1) % cap) cap = i := by
  have hc := cap_pos hp
  rw [probe_eq_mod _ hp, Nat.mod_add_mod,
    show i + cap - 1 + 1 = i + cap by omega, Nat.add_mod_right,
    Nat.mod_eq_of_lt hi]

theorem pred_probe (i : Nat) {cap : Nat} (hp : ∃ j, cap = 2 ^ j)
    (hi : i < cap) : (probe i cap + cap - 1) % cap = i := by
  have hc := cap_pos hp
  have h1 : probe i cap + cap - 1 = probe i cap + (cap - 1) := by omega
  rw [probe_eq_mod i hp] at h1 ⊢
  rw [h1, Nat.mod_add_mod, show i + 1 + (cap - 1) = i + cap by omega,
    Nat.add_mod_right, Nat.mod_eq_of_lt hi]

theorem probe_dist_pred (e : CellTableElem) (i : Nat) {cap : Nat}
    (hp : ∃ j, cap = 2 ^ j) (h0 : 0 < probe_dist e i cap) :
    probe_dist e ((i + cap - 1) % cap) cap = probe_dist e i cap - 1 := by
  have hc := cap_pos hp
  have hb : e.hash_val % cap < cap := Nat.mod_lt _ hc
  have hlt : probe_dist e i cap < cap := probe_dist_lt e i hp
  rw [probe_dist_eq_mod e i hp] at h0 hlt ⊢
  rw [probe_dist_eq_mod e ((i + cap - 1) % cap) hp, Nat.mod_add_mod,
    show i + cap - 1 + (cap - e.hash_val % cap) =
      i + (cap - e.hash_val % cap) + (cap - 1) by omega,
    ← Nat.mod_add_mod,
    show (i + (cap - e.hash_val % cap)) % cap + (cap - 1) =
      (i + (cap - e.hash_val % cap)) % cap - 1 + cap by omega,
    Nat.add_mod_right, Nat.mod_eq_of_lt (by omega)]

theorem probe_dist_succ_eq (e : CellTableElem) (i : Nat) {cap : Nat}
    (hp : ∃ j, cap = 2 ^ j) (h : probe_dist e i cap + 1 < cap) :
    probe_dist e (probe i cap) cap = probe_dist e i cap + 1 := by
  rw [probe_dist_probe e i hp, Nat.mod_eq_of_lt h]

theorem probe_dist_succ_wrap (e : CellTableElem) (i : Nat) {cap : Nat}
    (hp : ∃ j, cap = 2 ^ j) (h : probe_dist e i cap + 1 = cap) :
    probe_dist e (probe i cap) cap = 0 := by
  rw [probe_dist_probe e i hp, h, Nat.mod_self]

/-! ### List bookkeeping for `getD`, `set`, `countP` -/

theorem getD_set_self :
    ∀ (bs : List (Option CellTableElem)) (i : Nat) (x : Option CellTableElem),
      i < bs.length → (bs.set i x).getD i none = x := by
  intro bs
  induction bs with
  | nil => intro i x h; simp at h
  | cons a bs ih =>
    intro i x h
    cases i with
    | zero => rfl
    | succ i => exact ih i x (by simpa using h)

theorem getD_set_ne :
    ∀ (bs : List (Option CellTableElem)) (i j : Nat) (x : Option CellTableElem),
      i ≠ j → (bs.set i x).getD j none = bs.getD j none := by
  intro bs
  induction bs with
  | nil => intro i j x h; rfl
  | cons a bs ih =>
    intro i j x h
    cases i with
    | zero =>
      cases j with
      | zero => exact absurd rfl h
      | succ j => rfl
    | succ i =>
      cases j with
      | zero => rfl
      | succ j => exact ih i j x (by omega)

theorem countP_set (p : Option CellTableElem → Bool) :
    ∀ (bs : List (Option CellTableElem)) (i : Nat) (x : Option CellTableElem),
      i < bs.length →
      (bs.set i x).countP p + (if p (bs.getD i none) then 1 else 0) =
        bs.countP p + (if p x then 1 else 0) := by
  intro bs
  induction bs with
  | nil => intro i x h; simp at h
  | cons a bs ih =>
    intro i x h
    cases i with
    | zero =>
      show (x :: bs).countP p + _ = _
      rw [List.countP_cons, List.countP_cons]
      show _ + (if p a then 1 else 0) = _
      omega
    | succ i =>
      show (a :: bs.set i x).countP p + _ = _
      rw [List.countP_cons, List.countP_cons]
      have := ih i x (by simpa using h)
      show _ + (if p (bs.getD i none) then 1 else 0) = _
      omega

theorem getD_mem :
    ∀ (bs : List (Option CellTableElem)) (i : Nat) (e : CellTableElem),
      bs.getD i none = some e → some e ∈ bs := by
  intro bs
  induction bs with
  | nil => intro i e h; simp [List.getD] at h
  | cons a bs ih =>
    intro i e h
    cases i with
    | zero => exact h ▸ List.mem_cons_self a bs
    | succ i => exact List.mem_cons_of_mem a (ih i e h)

theorem mem_of_mem_set :
    ∀ (bs : List (Option CellTableElem)) (i : Nat) (x y : Option CellTableElem),
      y ∈ bs.set i x → y = x ∨ y ∈ bs := by
  intro bs
  induction bs with
  | nil => intro i x y h; simp at h
  | cons a bs ih =>
    intro i x y h
    cases i with
    | zero =>
      rcases List.mem_cons.mp h with h | h
      · exact Or.inl h
      · exact Or.inr (List.mem_cons_of_mem a h)
    | succ i =>
      rcases List.mem_cons.mp h with h | h
      · exact Or.inr (h ▸ List.mem_cons_self a bs)
      · rcases ih i x y h with h | h
        · exact Or.inl h
        · exact Or.inr (List.mem_cons_of_mem a h)

theorem countP_pos_of_getD (p : Option CellTableElem → Bool) :
    ∀ (bs : List (Option CellTableElem)) (i : Nat),
      i < bs.length → p (bs.getD i none) = true → 1 ≤ bs.countP p := by
  intro bs
  induction bs with
  | nil => intro i h; simp at h
  | cons a bs ih =>
    intro i h hp
    rw [List.countP_cons]
    cases i with
    | zero =>
      have ha : (a :: bs).getD 0 none = a := rfl
      rw [ha] at hp
      rw [if_pos hp]
      omega
    | succ i =>
      have := ih i (by simpa using h) hp
      omega

theorem countP_two_of_getD (p : Option CellTableElem → Bool) :
    ∀ (bs : List (Option CellTableElem)) (i j : Nat), i ≠ j →
      i < bs.length → j < bs.length →
      p (bs.getD i none) = true → p (bs.getD j none) = true →
      2 ≤ bs.countP p := by
  intro bs
  induction bs with
  | nil => intro i j hij hi; simp at hi
  | cons a bs ih =>
    intro i j hij hi hj hpi hpj
    rw [List.countP_cons]
    cases i with
    | zero =>
      cases j with
      | zero => exact absurd rfl hij
      | succ j =>
        have ha : (a :: bs).getD 0 none = a := rfl
        rw [ha] at hpi
        have := countP_pos_of_getD p bs j (by simpa using hj) hpj
        rw [if_pos hpi]
        omega
    | succ i =>
      cases j with
      | zero =>
        have ha : (a :: bs).getD 0 none = a := rfl
        rw [ha] at hpj
        have := countP_pos_of_getD p bs i (by simpa using hi) hpi
        rw [if_pos hpj]
        omega
      | succ j =>
        have := ih i j (by omega) (by simpa using hi) (by simpa using hj)
          hpi hpj
        omega

theorem exists_getD_of_countP_pos (p : Option CellTableElem → Bool) :
    ∀ (bs : List (Option CellTableElem)), 1 ≤ bs.countP p →
      ∃ i, i < bs.length ∧ p (bs.getD i none) = true := by
  intro bs
  induction bs with
  | nil => intro h; rw [List.countP_nil] at h; omega
  | cons a bs ih =>
    intro h
    rw [List.countP_cons] at h
    by_cases hpa : p a = true
    · exact ⟨0, by simp, hpa⟩
    · rw [if_neg hpa] at h
      obtain ⟨i, hi, hp⟩ := ih (by omega)
      exact ⟨i + 1, by simpa using hi, hp⟩

theorem numOcc_le_length (bs : List (Option CellTableElem)) :
    numOcc bs ≤ bs.length :=
  List.countP_le_length _

theorem exists_empty_of_numOcc_lt :
    ∀ (bs : List (Option CellTableElem)), numOcc bs < bs.length →
      ∃ j, j < bs.length ∧ bs.getD j none = none := by
  intro bs
  induction bs with
  | nil => intro h; simp [numOcc] at h
  | cons a bs ih =>
    intro h
    rw [numOcc, List.countP_cons] at h
    cases a with
    | none => exact ⟨0, by simp, rfl⟩
    | some e =>
      rw [if_pos (by simp)] at h
      simp only [List.length_cons] at h
      obtain ⟨j, hj, he⟩ := ih (by rw [numOcc]; omega)
      exact ⟨j + 1, by simpa using hj, he⟩
/-! ### Keys, uniqueness and occupancy helpers -/

theorem point2d_cmp_eq_zero (p q : Point2D) :
    point2d_cmp p q = 0 ↔ p = q := by
  rw [point2d_cmp]
  constructor
  · intro h
    by_cases hx : p.x - q.x = 0
    · rw [if_pos hx] at h
      cases p; cases q
      simp only [Point2D.mk.injEq]
      constructor <;> [skip; skip] <;> dsimp at hx h <;> omega
    · rw [if_neg hx] at h
      exact absurd h hx
  · rintro rfl
    simp

theorem add_mod_left_inj (home d1 d2 cap : Nat) (hc : 0 < cap)
    (h1 : d1 < cap) (h2 : d2 < cap)
    (h : (home + d1) % cap = (home + d2) % cap) : d1 = d2 := by
  have hmod : Nat.ModEq cap d1 d2 := Nat.ModEq.add_left_cancel' home h
  have hmod2 : d1 % cap = d2 % cap := hmod
  rwa [Nat.mod_eq_of_lt h1, Nat.mod_eq_of_lt h2] at hmod2

theorem offset_exists (idx j cap : Nat) (hc : 0 < cap) (hj : j < cap)
    (hi : idx < cap) : ∃ r, r < cap ∧ (idx + r) % cap = j := by
  refine ⟨(j + cap - idx) % cap, Nat.mod_lt _ hc, ?_⟩
  rw [Nat.add_comm idx _, Nat.mod_add_mod,
    show j + cap - idx + idx = j + cap by omega, Nat.add_mod_right,
    Nat.mod_eq_of_lt hj]

theorem countKey_pos (bs : List (Option CellTableElem)) (i : Nat)
    (e : CellTableElem) (k : Point2D) (hi : i < bs.length)
    (he : bs.getD i none = some e) (hk : e.key = k) :
    1 ≤ countKey bs k := by
  apply countP_pos_of_getD _ bs i hi
  rw [he]
  simpa using hk

theorem countKey_two (bs : List (Option CellTableElem)) (i j : Nat)
    (e e' : CellTableElem) (k : Point2D) (hij : i ≠ j)
    (hi : i < bs.length) (hj : j < bs.length)
    (he : bs.getD i none = some e) (he' : bs.getD j none = some e')
    (hk : e.key = k) (hk' : e'.key = k) : 2 ≤ countKey bs k := by
  apply countP_two_of_getD _ bs i j hij hi hj
  · rw [he]; simpa using hk
  · rw [he']; simpa using hk'

theorem exists_slot_of_countKey_pos (bs : List (Option CellTableElem))
    (k : Point2D) (h : 1 ≤ countKey bs k) :
    ∃ i, i < bs.length ∧ ∃ e, bs.getD i none = some e ∧ e.key = k := by
  obtain ⟨i, hi, hp⟩ := exists_getD_of_countP_pos _ bs h
  refine ⟨i, hi, ?_⟩
  cases hgd : bs.getD i none with
  | none => rw [hgd] at hp; simp at hp
  | some e =>
    rw [hgd] at hp
    exact ⟨e, rfl, by simpa using hp⟩

theorem hashOk_set (bs : List (Option CellTableElem)) (i : Nat)
    (x : Option CellTableElem) (hbs : hashOk bs)
    (hx : ∀ e : CellTableElem, x = some e → e.hash_val = hash_point2d e.key) :
    hashOk (bs.set i x) := by
  intro e he
  rcases mem_of_mem_set bs i x (some e) he with h | h
  · exact hx e h.symm
  · exact hbs e h

theorem getD_replicate :
    ∀ (n i : Nat),
      (List.replicate n (none : Option CellTableElem)).getD i none = none := by
  intro n
  induction n with
  | zero => intro i; rfl
  | succ n ih =>
    intro i
    cases i with
    | zero => rfl
    | succ i => exact ih i

theorem countP_replicate_none (p : Option CellTableElem → Bool)
    (hp : p none = false) :
    ∀ n, (List.replicate n (none : Option CellTableElem)).countP p = 0 := by
  intro n
  induction n with
  | zero => rfl
  | succ n ih =>
    rw [List.replicate_succ, List.countP_cons, hp, ih]
    simp

theorem getD_map_none :
    ∀ (bs : List (Option CellTableElem)) (i : Nat),
      (bs.map (fun _ => (none : Option CellTableElem))).getD i none = none := by
  intro bs
  induction bs with
  | nil => intro i; rfl
  | cons a bs ih =>
    intro i
    cases i with
    | zero => rfl
    | succ i => exact ih i

theorem countP_map_none (p : Option CellTableElem → Bool)
    (hp : p none = false) :
    ∀ (bs : List (Option CellTableElem)),
      (bs.map (fun _ => (none : Option CellTableElem))).countP p = 0 := by
  intro bs
  induction bs with
  | nil => rfl
  | cons a bs ih =>
    rw [List.map_cons, List.countP_cons, hp, ih]
    simp

/-! ### Unfolding lemmas for the walks -/

theorem find_elem_aux_zero (t : CellTable) (key : Point2D) (idx dist : Nat) :
    find_elem_aux t key idx dist 0 = none := rfl

theorem find_elem_aux_empty (t : CellTable) (key : Point2D)
    (idx dist fuel : Nat) (h : t.buckets.getD idx none = none) :
    find_elem_aux t key idx dist (fuel + 1) = none := by
  simp only [find_elem_aux]
  rw [h]

theorem find_elem_aux_found (t : CellTable) (key : Point2D)
    (idx dist fuel : Nat) (elem : CellTableElem)
    (h : t.buckets.getD idx none = some elem)
    (hcmp : point2d_cmp elem.key key = 0) :
    find_elem_aux t key idx dist (fuel + 1) = some (idx, elem) := by
  simp only [find_elem_aux]
  rw [h]
  dsimp only
  rw [if_pos hcmp]

theorem find_elem_aux_early (t : CellTable) (key : Point2D)
    (idx dist fuel : Nat) (elem : CellTableElem)
    (h : t.buckets.getD idx none = some elem)
    (hcmp : ¬ point2d_cmp elem.key key = 0)
    (hpd : probe_dist elem idx t.num_buckets < dist) :
    find_elem_aux t key idx dist (fuel + 1) = none := by
  simp only [find_elem_aux]
  rw [h]
  dsimp only
  rw [if_neg hcmp, if_pos hpd]

theorem find_elem_aux_step (t : CellTable) (key : Point2D)
    (idx dist fuel : Nat) (elem : CellTableElem)
    (h : t.buckets.getD idx none = some elem)
    (hcmp : ¬ point2d_cmp elem.key key = 0)
    (hpd : ¬ probe_dist elem idx t.num_buckets < dist) :
    find_elem_aux t key idx dist (fuel + 1) =
      find_elem_aux t key (probe idx t.num_buckets) (dist + 1) fuel := by
  simp only [find_elem_aux]
  rw [h]
  dsimp only
  rw [if_neg hcmp, if_neg hpd]

theorem rh_insert_loop_zero (cap : Nat) (bs : List (Option CellTableElem))
    (c : CellTableElem) (idx dist : Nat) :
    rh_insert_loop cap bs c idx dist 0 = none := rfl

theorem rh_insert_loop_place (cap : Nat) (bs : List (Option CellTableElem))
    (c : CellTableElem) (idx dist fuel : Nat)
    (h : bs.getD idx none = none) :
    rh_insert_loop cap bs c idx dist (fuel + 1) =
      some (bs.set idx (some c)) := by
  simp only [rh_insert_loop]
  rw [h]

theorem rh_insert_loop_swap (cap : Nat) (bs : List (Option CellTableElem))
    (c : CellTableElem) (idx dist fuel : Nat) (elem : CellTableElem)
    (h : bs.getD idx none = some elem)
    (hlt : probe_dist elem idx cap < dist) :
    rh_insert_loop cap bs c idx dist (fuel + 1) =
      rh_insert_loop cap (bs.set idx (some c)) elem (probe idx cap)
        (probe_dist elem idx cap + 1) fuel := by
  simp only [rh_insert_loop]
  rw [h]
  dsimp only
  rw [if_pos hlt]

theorem rh_insert_loop_noswap (cap : Nat) (bs : List (Option CellTableElem))
    (c : CellTableElem) (idx dist fuel : Nat) (elem : CellTableElem)
    (h : bs.getD idx none = some elem)
    (hlt : ¬ probe_dist elem idx cap < dist) :
    rh_insert_loop cap bs c idx dist (fuel + 1) =
      rh_insert_loop cap bs c (probe idx cap) (dist + 1) fuel := by
  simp only [rh_insert_loop]
  rw [h]
  dsimp only
  rw [if_neg hlt]

theorem backward_shift_loop_zero (cap : Nat)
    (bs : List (Option CellTableElem)) (hole : Nat) :
    backward_shift_loop cap bs hole 0 = none := rfl

theorem backward_shift_loop_empty (cap : Nat)
    (bs : List (Option CellTableElem)) (hole fuel : Nat)
    (h : bs.getD (probe hole cap) none = none) :
    backward_shift_loop cap bs hole (fuel + 1) = some (bs.set hole none) := by
  simp only [backward_shift_loop]
  rw [h]

theorem backward_shift_loop_pd0 (cap : Nat)
    (bs : List (Option CellTableElem)) (hole fuel : Nat)
    (elem : CellTableElem) (h : bs.getD (probe hole cap) none = some elem)
    (hpd : probe_dist elem (probe hole cap) cap = 0) :
    backward_shift_loop cap bs hole (fuel + 1) = some (bs.set hole none) := by
  simp only [backward_shift_loop]
  rw [h]
  dsimp only
  rw [if_pos hpd]

theorem backward_shift_loop_step (cap : Nat)
    (bs : List (Option CellTableElem)) (hole fuel : Nat)
    (elem : CellTableElem) (h : bs.getD (probe hole cap) none = some elem)
    (hpd : ¬ probe_dist elem (probe hole cap) cap = 0) :
    backward_shift_loop cap bs hole (fuel + 1) =
      backward_shift_loop cap (bs.set hole (some elem)) (probe hole cap)
        fuel := by
  simp only [backward_shift_loop]
  rw [h]
  dsimp only
  rw [if_neg hpd]

/-! ### The lookup walk: soundness -/

theorem find_elem_aux_sound (t : CellTable) (key : Point2D)
    (hp : ∃ j, t.num_buckets = 2 ^ j) :
    ∀ fuel idx dist fi fe, idx < t.num_buckets →
      find_elem_aux t key idx dist fuel = some (fi, fe) →
      fi < t.num_buckets ∧ t.buckets.getD fi none = some fe ∧
        fe.key = key := by
  intro fuel
  induction fuel with
  | zero => intro idx dist fi fe hi h; rw [find_elem_aux_zero] at h; cases h
  | succ fuel ih =>
    intro idx dist fi fe hi h
    cases hgd : t.buckets.getD idx none with
    | none => rw [find_elem_aux_empty t key idx dist fuel hgd] at h; cases h
    | some elem =>
      by_cases hcmp : point2d_cmp elem.key key = 0
      · rw [find_elem_aux_found t key idx dist fuel elem hgd hcmp] at h
        obtain ⟨rfl, rfl⟩ : idx = fi ∧ elem = fe := by
          constructor <;> [exact congrArg Prod.fst (Option.some.inj h);
            exact congrArg Prod.snd (Option.some.inj h)]
        exact ⟨hi, hgd, (point2d_cmp_eq_zero elem.key key).mp hcmp⟩
      · by_cases hpd : probe_dist elem idx t.num_buckets < dist
        · rw [find_elem_aux_early t key idx dist fuel elem hgd hcmp hpd] at h
          cases h
        · rw [find_elem_aux_step t key idx dist fuel elem hgd hcmp hpd] at h
          exact ih _ _ _ _ (probe_lt idx hp) h

theorem find_elem_sound (t : CellTable) (key : Point2D) (fi : Nat)
    (fe : CellTableElem) (hp : ∃ j, t.num_buckets = 2 ^ j)
    (h : find_elem t key (bucket_idx (hash_point2d key) t.num_buckets) =
      some (fi, fe)) :
    fi < t.num_buckets ∧ t.buckets.getD fi none = some fe ∧
      fe.key = key :=
  find_elem_aux_sound t key hp t.num_buckets _ 0 fi fe
    (bucket_idx_lt _ hp) h

/-! ### The lookup walk: completeness under the Robin Hood invariant -/

/-- Walking backwards from an occupied slot towards its ideal bucket, every
slot on the way is occupied with probe distance at least its distance from
the ideal bucket. -/
theorem rh_chain (bs : List (Option CellTableElem)) (cap : Nat)
    (hp : ∃ j, cap = 2 ^ j) (hrh : rhInv bs cap)
    (s : Nat) (e : CellTableElem) (hs : s < cap)
    (hse : bs.getD s none = some e) :
    ∀ d, d ≤ probe_dist e s cap →
      ∃ ed, bs.getD ((bucket_idx e.hash_val cap + d) % cap) none = some ed ∧
        d ≤ probe_dist ed ((bucket_idx e.hash_val cap + d) % cap) cap := by
  have hc := cap_pos hp
  suffices H : ∀ j, j ≤ probe_dist e s cap →
      ∃ ed,
        bs.getD ((bucket_idx e.hash_val cap + (probe_dist e s cap - j)) % cap)
          none = some ed ∧
        probe_dist e s cap - j ≤ probe_dist ed
          ((bucket_idx e.hash_val cap + (probe_dist e s cap - j)) % cap) cap by
    intro d hd
    have h := H (probe_dist e s cap - d) (by omega)
    rw [show probe_dist e s cap - (probe_dist e s cap - d) = d by omega] at h
    exact h
  intro j
  induction j with
  | zero =>
    intro _
    rw [Nat.sub_zero, home_add_probe_dist e s hp hs]
    exact ⟨e, hse, le_rfl⟩
  | succ j ih =>
    intro hj
    obtain ⟨ed, hed, hpd⟩ := ih (by omega)
    have hq_lt : (bucket_idx e.hash_val cap +
        (probe_dist e s cap - j)) % cap < cap := Nat.mod_lt _ hc
    have hpd_pos : 0 < probe_dist ed
        ((bucket_idx e.hash_val cap + (probe_dist e s cap - j)) % cap) cap := by
      omega
    obtain ⟨ep, hep, hbound⟩ := hrh _ hq_lt ed hed hpd_pos
    have hpos : ((bucket_idx e.hash_val cap + (probe_dist e s cap - j)) % cap
          + cap - 1) % cap =
        (bucket_idx e.hash_val cap + (probe_dist e s cap - (j + 1))) % cap := by
      rw [show (bucket_idx e.hash_val cap + (probe_dist e s cap - j)) % cap
            + cap - 1 =
          (bucket_idx e.hash_val cap + (probe_dist e s cap - j)) % cap
            + (cap - 1) by omega,
        Nat.mod_add_mod,
        show bucket_idx e.hash_val cap + (probe_dist e s cap - j) + (cap - 1) =
          bucket_idx e.hash_val cap + (probe_dist e s cap - (j + 1)) + cap by
          omega,
        Nat.add_mod_right]
    rw [hpos] at hep hbound
    exact ⟨ep, hep, by omega⟩

/-- Under the Robin Hood invariant, key uniqueness and a correctly cached
hash, the lookup walk reaches any slot that holds the key. -/
theorem find_elem_aux_complete (t : CellTable) (k : Point2D)
    (hp : ∃ j, t.num_buckets = 2 ^ j)
    (hlen : t.buckets.length = t.num_buckets)
    (hrh : rhInv t.buckets t.num_buckets)
    (huniq : ∀ kk, countKey t.buckets kk ≤ 1)
    (s : Nat) (e : CellTableElem) (hs : s < t.num_buckets)
    (hse : t.buckets.getD s none = some e) (hek : e.key = k) :
    ∀ m dist, dist + m = probe_dist e s t.num_buckets →
      find_elem_aux t k
        ((bucket_idx e.hash_val t.num_buckets + dist) % t.num_buckets) dist
        (t.num_buckets - dist) = some (s, e) := by
  have hc := cap_pos hp
  have hplt : probe_dist e s t.num_buckets < t.num_buckets :=
    probe_dist_lt e s hp
  intro m
  induction m with
  | zero =>
    intro dist hdist
    rw [Nat.add_zero] at hdist
    subst hdist
    rw [home_add_probe_dist e s hp hs]
    obtain ⟨f, hf⟩ : ∃ f, t.num_buckets - probe_dist e s t.num_buckets =
        f + 1 := ⟨t.num_buckets - probe_dist e s t.num_buckets - 1, by omega⟩
    rw [hf]
    exact find_elem_aux_found t k s _ f e hse
      ((point2d_cmp_eq_zero e.key k).mpr hek)
  | succ m ih =>
    intro dist hdist
    have hdlt : dist < probe_dist e s t.num_buckets := by omega
    obtain ⟨ed, hed, hpd⟩ := rh_chain t.buckets t.num_buckets hp hrh s e hs
      hse dist (by omega)
    have hidx_lt : (bucket_idx e.hash_val t.num_buckets + dist) %
        t.num_buckets < t.num_buckets := Nat.mod_lt _ hc
    have hne : (bucket_idx e.hash_val t.num_buckets + dist) % t.num_buckets ≠
        s := by
      intro heq
      rw [← home_add_probe_dist e s hp hs] at heq
      have := add_mod_left_inj (bucket_idx e.hash_val t.num_buckets) dist
        (probe_dist e s t.num_buckets) t.num_buckets hc (by omega) hplt heq
      omega
    have hkey : ed.key ≠ k := by
      intro hk
      have h2 := countKey_two t.buckets _ s ed e k hne
        (by rw [hlen]; exact hidx_lt) (by rw [hlen]; exact hs) hed hse hk hek
      have := huniq k
      omega
    have hcmp : ¬ point2d_cmp ed.key k = 0 := fun h =>
      hkey ((point2d_cmp_eq_zero ed.key k).mp h)
    have hnpd : ¬ probe_dist ed
        ((bucket_idx e.hash_val t.num_buckets + dist) % t.num_buckets)
        t.num_buckets < dist := by omega
    obtain ⟨f, hf⟩ : ∃ f, t.num_buckets - dist = f + 1 :=
      ⟨t.num_buckets - dist - 1, by omega⟩
    rw [hf, find_elem_aux_step t k _ dist f ed hed hcmp hnpd]
    have hprobe : probe
        ((bucket_idx e.hash_val t.num_buckets + dist) % t.num_buckets)
        t.num_buckets =
        (bucket_idx e.hash_val t.num_buckets + (dist + 1)) % t.num_buckets := by
      rw [probe_eq_mod _ hp, Nat.mod_add_mod, ← Nat.add_assoc]
    rw [hprobe, show f = t.num_buckets - (dist + 1) by omega]
    exact ih (dist + 1) (by omega)

/-- `find_elem`, started at the ideal bucket of the key as every caller in
the source does, finds the slot holding the key whenever one exists (in a
well-formed table). -/
theorem find_elem_complete (t : CellTable) (k : Point2D)
    (hp : ∃ j, t.num_buckets = 2 ^ j)
    (hlen : t.buckets.length = t.num_buckets)
    (hrh : rhInv t.buckets t.num_buckets)
    (hhash : hashOk t.buckets)
    (huniq : ∀ kk, countKey t.buckets kk ≤ 1)
    (s : Nat) (e : CellTableElem) (hs : s < t.num_buckets)
    (hse : t.buckets.getD s none = some e) (hek : e.key = k) :
    find_elem t k (bucket_idx (hash_point2d k) t.num_buckets) = some (s, e) := by
  have hh : e.hash_val = hash_point2d k := by
    rw [hhash e (getD_mem t.buckets s e hse), hek]
  have h0 := find_elem_aux_complete t k hp hlen hrh huniq s e hs hse hek
    (probe_dist e s t.num_buckets) 0 (by omega)
  rw [find_elem]
  have hstart : (bucket_idx e.hash_val t.num_buckets + 0) % t.num_buckets =
      bucket_idx (hash_point2d k) t.num_buckets := by
    rw [Nat.add_zero, hh, Nat.mod_eq_of_lt (bucket_idx_lt _ hp)]
  rw [hstart] at h0
  rw [show t.num_buckets = t.num_buckets - 0 from rfl]
  exact h0

/-! ### Preservation helpers for the Robin Hood invariant -/

theorem probe_dist_cap_one (e : CellTableElem) (i : Nat) :
    probe_dist e i 1 = 0 := by
  rw [probe_dist]
  simp

theorem rh_pred_ne_self (i cap : Nat) (hp : ∃ j, cap = 2 ^ j) (hcap : 2 ≤ cap)
    (hi : i < cap) : (i + cap - 1) % cap ≠ i := by
  intro h
  rw [show i + cap - 1 = i + (cap - 1) by omega] at h
  have h2 : (i + (cap - 1)) % cap = (i + 0) % cap := by
    rw [Nat.add_zero, Nat.mod_eq_of_lt hi]
    exact h
  have := add_mod_left_inj i (cap - 1) 0 cap (by omega) (by omega) (by omega) h2
  omega

/-- Writing an element into an empty slot preserves the invariant, provided
the element's probe distance is supported by its predecessor. -/
theorem rhInv_set_empty (bs : List (Option CellTableElem)) (cap : Nat)
    (hp : ∃ j, cap = 2 ^ j) (hlen : bs.length = cap) (idx : Nat)
    (hidx : idx < cap) (c : CellTableElem)
    (hempty : bs.getD idx none = none) (hrh : rhInv bs cap)
    (hsupp : 0 < probe_dist c idx cap →
      ∃ ep, bs.getD ((idx + cap - 1) % cap) none = some ep ∧
        probe_dist c idx cap ≤ probe_dist ep ((idx + cap - 1) % cap) cap + 1) :
    rhInv (bs.set idx (some c)) cap := by
  intro i hi e he hpd
  rcases Nat.eq_or_lt_of_le (cap_pos hp) with hcap1 | hcap2
  · have hz : probe_dist e i cap = 0 := by
      rw [← hcap1]; exact probe_dist_cap_one e i
    omega
  by_cases hii : i = idx
  · subst hii
    rw [getD_set_self bs i (some c) (by omega)] at he
    obtain rfl : c = e := Option.some.inj he
    obtain ⟨ep, hep, hbound⟩ := hsupp hpd
    refine ⟨ep, ?_, hbound⟩
    rw [getD_set_ne bs i _ (some c)
      (fun hh => rh_pred_ne_self i cap hp (by omega) hi hh.symm)]
    exact hep
  · rw [getD_set_ne bs idx i (some c) (fun hh => hii hh.symm)] at he
    obtain ⟨ep, hep, hbound⟩ := hrh i hi e he hpd
    by_cases hpi : (i + cap - 1) % cap = idx
    · rw [hpi] at hep
      rw [hep] at hempty
      cases hempty
    · refine ⟨ep, ?_, hbound⟩
      rw [getD_set_ne bs idx _ (some c) (fun hh => hpi hh.symm)]
      exact hep

/-- Overwriting an occupied slot with an element of probe distance at least
the resident's preserves the invariant, provided the new probe distance is
supported by the predecessor. -/
theorem rhInv_set_occupied (bs : List (Option CellTableElem)) (cap : Nat)
    (hp : ∃ j, cap = 2 ^ j) (hlen : bs.length = cap) (idx : Nat)
    (hidx : idx < cap) (r c : CellTableElem)
    (hocc : bs.getD idx none = some r)
    (hge : probe_dist r idx cap ≤ probe_dist c idx cap) (hrh : rhInv bs cap)
    (hsupp : 0 < probe_dist c idx cap →
      ∃ ep, bs.getD ((idx + cap - 1) % cap) none = some ep ∧
        probe_dist c idx cap ≤ probe_dist ep ((idx + cap - 1) % cap) cap + 1) :
    rhInv (bs.set idx (some c)) cap := by
  intro i hi e he hpd
  rcases Nat.eq_or_lt_of_le (cap_pos hp) with hcap1 | hcap2
  · have hz : probe_dist e i cap = 0 := by
      rw [← hcap1]; exact probe_dist_cap_one e i
    omega
  by_cases hii : i = idx
  · subst hii
    rw [getD_set_self bs i (some c) (by omega)] at he
    obtain rfl : c = e := Option.some.inj he
    obtain ⟨ep, hep, hbound⟩ := hsupp hpd
    refine ⟨ep, ?_, hbound⟩
    rw [getD_set_ne bs i _ (some c)
      (fun hh => rh_pred_ne_self i cap hp (by omega) hi hh.symm)]
    exact hep
  · rw [getD_set_ne bs idx i (some c) (fun hh => hii hh.symm)] at he
    obtain ⟨ep, hep, hbound⟩ := hrh i hi e he hpd
    by_cases hpi : (i + cap - 1) % cap = idx
    · rw [hpi] at hep
      rw [hep] at hocc
      obtain rfl : ep = r := Option.some.inj hocc
      refine ⟨c, ?_, ?_⟩
      · rw [hpi, getD_set_self bs idx (some c) (by omega)]
      · rw [hpi] at hbound
        rw [hpi]
        omega
    · refine ⟨ep, ?_, hbound⟩
      rw [getD_set_ne bs idx _ (some c) (fun hh => hpi hh.symm)]
      exact hep

/-! ### The insertion walk: bookkeeping, hash caching, invariant -/

/-- Basic specification of the Robin Hood insertion walk: if an empty slot
lies within `fuel` probe steps, the walk succeeds, preserves the array
length and adds exactly the carried element to the contents (stated for an
arbitrary slot predicate `p`). -/
theorem rh_insert_loop_basic (cap : Nat) (hp : ∃ j, cap = 2 ^ j) :
    ∀ (fuel : Nat) (bs : List (Option CellTableElem)) (c : CellTableElem)
      (idx dist : Nat),
      bs.length = cap → idx < cap →
      (∃ r, r < fuel ∧ bs.getD ((idx + r) % cap) none = none) →
      ∃ bs', rh_insert_loop cap bs c idx dist fuel = some bs' ∧
        bs'.length = cap ∧
        (∀ p : Option CellTableElem → Bool,
          bs'.countP p + (if p none then 1 else 0) =
            bs.countP p + (if p (some c) then 1 else 0)) := by
  intro fuel
  induction fuel with
  | zero =>
    intro bs c idx dist hlen hidx hempty
    obtain ⟨r, hr, _⟩ := hempty
    omega
  | succ fuel ih =>
    intro bs c idx dist hlen hidx hempty
    obtain ⟨r, hr, hre⟩ := hempty
    cases hgd : bs.getD idx none with
    | none =>
      refine ⟨bs.set idx (some c),
        rh_insert_loop_place cap bs c idx dist fuel hgd, by simp [hlen], ?_⟩
      intro p
      have := countP_set p bs idx (some c) (by omega)
      rw [hgd] at this
      omega
    | some elem =>
      have hr0 : r ≠ 0 := by
        intro h
        rw [h, Nat.add_zero, Nat.mod_eq_of_lt hidx, hgd] at hre
        cases hre
      have hnotidx : (idx + r) % cap ≠ idx := by
        intro h
        rw [h, hgd] at hre
        cases hre
      have hshift : ((probe idx cap) + (r - 1)) % cap = (idx + r) % cap := by
        rw [probe_eq_mod idx hp, Nat.mod_add_mod]
        congr 1
        omega
      by_cases hlt : probe_dist elem idx cap < dist
      · rw [rh_insert_loop_swap cap bs c idx dist fuel elem hgd hlt]
        have hre' : (bs.set idx (some c)).getD
            ((probe idx cap + (r - 1)) % cap) none = none := by
          rw [hshift, getD_set_ne bs idx _ (some c)
            (fun hh => hnotidx hh.symm)]
          exact hre
        obtain ⟨bs', hbs', hlen', hcount'⟩ := ih (bs.set idx (some c)) elem
          (probe idx cap) (probe_dist elem idx cap + 1) (by simp [hlen])
          (probe_lt idx hp) ⟨r - 1, by omega, hre'⟩
        refine ⟨bs', hbs', hlen', ?_⟩
        intro p
        have h1 := hcount' p
        have h2 := countP_set p bs idx (some c) (by omega)
        rw [hgd] at h2
        omega
      · rw [rh_insert_loop_noswap cap bs c idx dist fuel elem hgd hlt]
        have hre' : bs.getD ((probe idx cap + (r - 1)) % cap) none = none := by
          rw [hshift]; exact hre
        exact ih bs c (probe idx cap) (dist + 1) hlen (probe_lt idx hp)
          ⟨r - 1, by omega, hre'⟩

/-- The insertion walk preserves correctly cached hashes. -/
theorem rh_insert_loop_hashOk (cap : Nat) :
    ∀ (fuel : Nat) (bs : List (Option CellTableElem)) (c : CellTableElem)
      (idx dist : Nat) (bs' : List (Option CellTableElem)),
      rh_insert_loop cap bs c idx dist fuel = some bs' →
      hashOk bs → c.hash_val = hash_point2d c.key → hashOk bs' := by
  intro fuel
  induction fuel with
  | zero =>
    intro bs c idx dist bs' h
    rw [rh_insert_loop_zero] at h
    cases h
  | succ fuel ih =>
    intro bs c idx dist bs' h hbs hc
    cases hgd : bs.getD idx none with
    | none =>
      rw [rh_insert_loop_place cap bs c idx dist fuel hgd] at h
      obtain rfl := Option.some.inj h
      exact hashOk_set bs idx (some c) hbs
        (fun e he => by cases Option.some.inj he; exact hc)
    | some elem =>
      by_cases hlt : probe_dist elem idx cap < dist
      · rw [rh_insert_loop_swap cap bs c idx dist fuel elem hgd hlt] at h
        exact ih _ _ _ _ _ h
          (hashOk_set bs idx (some c) hbs
            (fun e he => by cases Option.some.inj he; exact hc))
          (hbs elem (getD_mem bs idx elem hgd))
      · rw [rh_insert_loop_noswap cap bs c idx dist fuel elem hgd hlt] at h
        exact ih _ _ _ _ _ h hbs hc

/-- The insertion walk preserves the Robin Hood invariant.  The hypotheses
are the loop invariant of the walk: `dist` is the carried element's probe
distance at `idx` (unless the walk has just wrapped all the way around, in
which case the slot ahead is empty and the true distance is `0`), an empty
slot lies ahead within the remaining fuel and distance budget, and a
displaced carried element is supported by the predecessor slot. -/
theorem rh_insert_loop_rh (cap : Nat) (hp : ∃ j, cap = 2 ^ j) :
    ∀ (fuel : Nat) (bs : List (Option CellTableElem)) (c : CellTableElem)
      (idx dist : Nat),
      bs.length = cap → idx < cap → dist ≤ cap →
      (dist < cap → probe_dist c idx cap = dist) →
      (dist = cap → bs.getD idx none = none ∧ probe_dist c idx cap = 0) →
      (∃ r, r < fuel ∧ bs.getD ((idx + r) % cap) none = none ∧
        dist + r ≤ cap) →
      rhInv bs cap →
      (0 < dist → dist < cap →
        ∃ ep, bs.getD ((idx + cap - 1) % cap) none = some ep ∧
          dist ≤ probe_dist ep ((idx + cap - 1) % cap) cap + 1) →
      ∀ bs', rh_insert_loop cap bs c idx dist fuel = some bs' →
        rhInv bs' cap := by
  intro fuel
  induction fuel with
  | zero =>
    intro bs c idx dist _ _ _ _ _ _ _ _ bs' h
    rw [rh_insert_loop_zero] at h
    cases h
  | succ fuel ih =>
    intro bs c idx dist hlen hidx hdle hH2 hH2c hH5 hrh hH4 bs' h
    have hc := cap_pos hp
    cases hgd : bs.getD idx none with
    | none =>
      rw [rh_insert_loop_place cap bs c idx dist fuel hgd] at h
      obtain rfl := Option.some.inj h
      rcases Nat.lt_or_ge dist cap with hdlt | hdge
      · have hpdc := hH2 hdlt
        apply rhInv_set_empty bs cap hp hlen idx hidx c hgd hrh
        intro hpos
        rw [hpdc] at hpos ⊢
        exact hH4 hpos hdlt
      · have hdeq : dist = cap := by omega
        obtain ⟨-, hpd0⟩ := hH2c hdeq
        apply rhInv_set_empty bs cap hp hlen idx hidx c hgd hrh
        intro hpos
        rw [hpd0] at hpos
        omega
    | some elem =>
      have hdlt : dist < cap := by
        rcases Nat.lt_or_ge dist cap with h1 | h1
        · exact h1
        · obtain ⟨hemp, -⟩ := hH2c (by omega)
          rw [hemp] at hgd
          cases hgd
      have hpdc := hH2 hdlt
      obtain ⟨r, hrf, hre, hrb⟩ := hH5
      have hr0 : r ≠ 0 := by
        intro h0
        rw [h0, Nat.add_zero, Nat.mod_eq_of_lt hidx, hgd] at hre
        cases hre
      have hnotidx : (idx + r) % cap ≠ idx := by
        intro hh
        rw [hh, hgd] at hre
        cases hre
      have hshift : (probe idx cap + (r - 1)) % cap = (idx + r) % cap := by
        rw [probe_eq_mod idx hp, Nat.mod_add_mod]
        congr 1
        omega
      by_cases hlt : probe_dist elem idx cap < dist
      · rw [rh_insert_loop_swap cap bs c idx dist fuel elem hgd hlt] at h
        have hdpos : 0 < dist := by omega
        have hrh1 : rhInv (bs.set idx (some c)) cap := by
          apply rhInv_set_occupied bs cap hp hlen idx hidx elem c hgd
            (by omega) hrh
          intro hpos
          rw [hpdc]
          exact hH4 hdpos hdlt
        refine ih (bs.set idx (some c)) elem (probe idx cap)
          (probe_dist elem idx cap + 1) (by simp [hlen]) (probe_lt idx hp)
          (by omega) ?_ ?_ ?_ hrh1 ?_ bs' h
        · intro hlt2
          exact probe_dist_succ_eq elem idx hp (by omega)
        · intro hcc
          exact absurd hcc (by omega)
        · refine ⟨r - 1, by omega, ?_, by omega⟩
          rw [hshift, getD_set_ne bs idx _ (some c)
            (fun hh => hnotidx hh.symm)]
          exact hre
        · intro _ _
          refine ⟨c, ?_, ?_⟩
          · rw [pred_probe idx hp hidx,
              getD_set_self bs idx (some c) (by omega)]
          · rw [pred_probe idx hp hidx, hpdc]
            omega
      · rw [rh_insert_loop_noswap cap bs c idx dist fuel elem hgd hlt] at h
        refine ih bs c (probe idx cap) (dist + 1) hlen (probe_lt idx hp)
          (by omega) ?_ ?_ ?_ hrh ?_ bs' h
        · intro hlt2
          rw [probe_dist_succ_eq c idx hp (by omega), hpdc]
        · intro hcc
          have hr1 : r = 1 := by omega
          constructor
          · rw [probe_eq_mod idx hp]
            rw [hr1] at hre
            exact hre
          · exact probe_dist_succ_wrap c idx hp (by omega)
        · refine ⟨r - 1, by omega, ?_, by omega⟩
          rw [hshift]
          exact hre
        · intro _ hlt2
          refine ⟨elem, ?_, ?_⟩
          · rw [pred_probe idx hp hidx]
            exact hgd
          · rw [pred_probe idx hp hidx]
            omega

/-- Frame property of the insertion walk: slots outside the walked segment
(from the start up to the first empty slot) are untouched. -/
theorem rh_insert_loop_frame (cap : Nat) (hp : ∃ j, cap = 2 ^ j) :
    ∀ (fuel : Nat) (bs : List (Option CellTableElem)) (c : CellTableElem)
      (idx dist T : Nat),
      idx < cap →
      bs.getD ((idx + T) % cap) none = none →
      (∀ t, t < T → bs.getD ((idx + t) % cap) none ≠ none) →
      ∀ bs', rh_insert_loop cap bs c idx dist fuel = some bs' →
      ∀ j, (∀ t, t ≤ T → j ≠ (idx + t) % cap) →
        bs'.getD j none = bs.getD j none := by
  intro fuel
  induction fuel with
  | zero =>
    intro bs c idx dist T _ _ _ bs' h
    rw [rh_insert_loop_zero] at h
    cases h
  | succ fuel ih =>
    intro bs c idx dist T hidx hTe hTocc bs' h j hj
    have hc := cap_pos hp
    have hjidx : j ≠ idx := by
      have := hj 0 (Nat.zero_le T)
      rwa [Nat.add_zero, Nat.mod_eq_of_lt hidx] at this
    cases hgd : bs.getD idx none with
    | none =>
      rw [rh_insert_loop_place cap bs c idx dist fuel hgd] at h
      obtain rfl := Option.some.inj h
      exact getD_set_ne bs idx j (some c) (fun hh => hjidx hh.symm)
    | some elem =>
      have hT0 : T ≠ 0 := by
        intro h0
        rw [h0, Nat.add_zero, Nat.mod_eq_of_lt hidx, hgd] at hTe
        cases hTe
      have hshift : ∀ s, (probe idx cap + s) % cap = (idx + (s + 1)) % cap := by
        intro s
        rw [probe_eq_mod idx hp, Nat.mod_add_mod]
        congr 1
        omega
      have hTe' : bs.getD ((probe idx cap + (T - 1)) % cap) none = none := by
        rw [hshift (T - 1), show T - 1 + 1 = T by omega]
        exact hTe
      have hTocc' : ∀ t, t < T - 1 →
          bs.getD ((probe idx cap + t) % cap) none ≠ none := by
        intro t ht
        rw [hshift t]
        exact hTocc (t + 1) (by omega)
      have hj' : ∀ t, t ≤ T - 1 → j ≠ (probe idx cap + t) % cap := by
        intro t ht
        rw [hshift t]
        exact hj (t + 1) (by omega)
      by_cases hlt : probe_dist elem idx cap < dist
      · rw [rh_insert_loop_swap cap bs c idx dist fuel elem hgd hlt] at h
        have hTe1 : (bs.set idx (some c)).getD
            ((probe idx cap + (T - 1)) % cap) none = none := by
          rw [getD_set_ne bs idx _ (some c) ?hne]
          · exact hTe'
          case hne =>
            intro hh
            rw [← hh] at hTe'
            rw [hgd] at hTe'
            cases hTe'
        have hTocc1 : ∀ t, t < T - 1 →
            (bs.set idx (some c)).getD ((probe idx cap + t) % cap) none ≠
              none := by
          intro t ht
          by_cases hh : idx = (probe idx cap + t) % cap
          · rw [← hh, getD_set_self bs idx (some c) ?hlt2]
            · exact fun hc2 => Option.noConfusion hc2
            case hlt2 =>
              have : idx < bs.length := by
                by_contra hcon
                have : bs.getD idx none = none := by
                  rw [List.getD_eq_default]
                  omega
                rw [this] at hgd
                cases hgd
              exact this
          · rw [getD_set_ne bs idx _ (some c) hh]
            exact hTocc' t ht
        have := ih (bs.set idx (some c)) elem (probe idx cap)
          (probe_dist elem idx cap + 1) (T - 1) (probe_lt idx hp) hTe1
          hTocc1 bs' h j hj'
        rw [this, getD_set_ne bs idx j (some c) (fun hh => hjidx hh.symm)]
      · rw [rh_insert_loop_noswap cap bs c idx dist fuel elem hgd hlt] at h
        exact ih bs c (probe idx cap) (dist + 1) (T - 1) (probe_lt idx hp)
          hTe' hTocc' bs' h j hj'

/-- When the insertion walk starts (with distance `0`), its first slot is
never swapped: if that slot is occupied and the first empty slot arrives
within `cap - 1` steps, the starting slot is unchanged in the result. -/
theorem rh_insert_loop_start_no_swap (cap : Nat) (hp : ∃ j, cap = 2 ^ j) :
    ∀ (fuel : Nat) (bs : List (Option CellTableElem)) (c : CellTableElem)
      (idx T : Nat),
      idx < cap → 1 ≤ T → T ≤ cap - 1 →
      bs.getD ((idx + T) % cap) none = none →
      (∀ t, t < T → bs.getD ((idx + t) % cap) none ≠ none) →
      ∀ bs', rh_insert_loop cap bs c idx 0 fuel = some bs' →
        bs'.getD idx none = bs.getD idx none := by
  intro fuel bs c idx T hidx hT1 hTc hTe hTocc bs' h
  have hc := cap_pos hp
  cases fuel with
  | zero =>
    rw [rh_insert_loop_zero] at h
    cases h
  | succ fuel =>
    cases hgd : bs.getD idx none with
    | none =>
      exfalso
      have := hTocc 0 (by omega)
      rw [Nat.add_zero, Nat.mod_eq_of_lt hidx] at this
      exact this hgd
    | some elem =>
      have hnoswap : ¬ probe_dist elem idx cap < 0 := by omega
      rw [rh_insert_loop_noswap cap bs c idx 0 fuel elem hgd hnoswap] at h
      have hshift : ∀ s, (probe idx cap + s) % cap = (idx + (s + 1)) % cap := by
        intro s
        rw [probe_eq_mod idx hp, Nat.mod_add_mod]
        congr 1
        omega
      have hTe' : bs.getD ((probe idx cap + (T - 1)) % cap) none = none := by
        rw [hshift (T - 1), show T - 1 + 1 = T by omega]
        exact hTe
      have hTocc' : ∀ t, t < T - 1 →
          bs.getD ((probe idx cap + t) % cap) none ≠ none := by
        intro t ht
        rw [hshift t]
        exact hTocc (t + 1) (by omega)
      rw [← hgd]
      apply rh_insert_loop_frame cap hp fuel bs c (probe idx cap) 1 (T - 1)
        (probe_lt idx hp) hTe' hTocc' bs' h idx
      intro t ht
      rw [hshift t]
      intro hh
      have hne : (idx + 0) % cap = (idx + (t + 1)) % cap := by
        rw [Nat.add_zero, Nat.mod_eq_of_lt hidx]
        exact hh
      have := add_mod_left_inj idx 0 (t + 1) cap hc (by omega) (by omega) hne
      omega

theorem countP_not_isSome :
    ∀ (bs : List (Option CellTableElem)),
      bs.countP (fun s => !s.isSome) + numOcc bs = bs.length := by
  intro bs
  induction bs with
  | nil => rfl
  | cons a bs ih =>
    rw [numOcc, List.countP_cons, List.countP_cons] at *
    cases a with
    | none => simp only [Option.isSome_none] at *; simp at *; omega
    | some e => simp only [Option.isSome_some] at *; simp at *; omega

/-- In an array with exactly one free slot, that free slot is unique. -/
theorem unique_empty (bs : List (Option CellTableElem))
    (h1 : numOcc bs + 1 = bs.length) :
    ∃ E, E < bs.length ∧ bs.getD E none = none ∧
      ∀ j, j < bs.length → j ≠ E → bs.getD j none ≠ none := by
  obtain ⟨E, hE, hEe⟩ := exists_empty_of_numOcc_lt bs (by omega)
  refine ⟨E, hE, hEe, ?_⟩
  intro j hj hje
  intro hjnone
  have h2 : 2 ≤ bs.countP (fun s => !s.isSome) := by
    apply countP_two_of_getD _ bs j E hje hj hE
    · rw [hjnone]; rfl
    · rw [hEe]; rfl
  have := countP_not_isSome bs
  omega

/-- If the insertion walk fills the last free slot of the array, the
resulting full array still has an element sitting in its ideal bucket: the
element directly after the filled slot, which the walk never displaces. -/
theorem rh_insert_loop_full_pd0 (cap : Nat) (hp : ∃ j, cap = 2 ^ j)
    (bs : List (Option CellTableElem)) (c : CellTableElem) (idx : Nat)
    (bs' : List (Option CellTableElem)) (hlen : bs.length = cap)
    (hidx : idx < cap) (hrh : rhInv bs cap) (hone : numOcc bs + 1 = cap)
    (h : rh_insert_loop cap bs c idx 0 cap = some bs') :
    ∃ i, i < cap ∧ ∃ e, bs'.getD i none = some e ∧
      probe_dist e i cap = 0 := by
  have hc := cap_pos hp
  obtain ⟨E, hE, hEe, hEuniq⟩ := unique_empty bs (by omega)
  have hEcap : E < cap := by omega
  rcases Nat.eq_or_lt_of_le hc with hcap1 | hcap2
  · subst hcap1
    have hidx0 : idx = 0 := by omega
    have hE0 : E = 0 := by omega
    subst hidx0
    rw [hE0] at hEe
    rw [rh_insert_loop_place 1 bs c 0 0 0 hEe] at h
    obtain rfl := Option.some.inj h
    exact ⟨0, by omega, c, getD_set_self bs 0 (some c) (by omega),
      probe_dist_cap_one c 0⟩
  · obtain ⟨T, hT, hTeq⟩ := offset_exists idx E cap hc hEcap hidx
    have hTe : bs.getD ((idx + T) % cap) none = none := by
      rw [hTeq]; exact hEe
    have hTocc : ∀ t, t < T → bs.getD ((idx + t) % cap) none ≠ none := by
      intro t ht
      have hmlt : (idx + t) % cap < cap := Nat.mod_lt _ hc
      apply hEuniq _ (by omega)
      intro hteq
      rw [← hTeq] at hteq
      have := add_mod_left_inj idx t T cap hc (by omega) (by omega) hteq
      omega
    have hPlt : probe E cap < cap := probe_lt E hp
    have hPne : probe E cap ≠ E := by
      intro hh
      rw [probe_eq_mod E hp] at hh
      have h0 : (E + 1) % cap = (E + 0) % cap := by
        rw [Nat.add_zero]
        show (E + 1) % cap = E % cap
        rw [Nat.mod_eq_of_lt hEcap]
        exact hh
      have := add_mod_left_inj E 1 0 cap hc (by omega) (by omega) h0
      omega
    have he0 : ∃ e0, bs.getD (probe E cap) none = some e0 := by
      have := hEuniq (probe E cap) (by omega) hPne
      cases hgd : bs.getD (probe E cap) none with
      | none => exact absurd hgd this
      | some e0 => exact ⟨e0, rfl⟩
    obtain ⟨e0, he0⟩ := he0
    have hpd0 : probe_dist e0 (probe E cap) cap = 0 := by
      by_contra hcon
      obtain ⟨ep, hep, -⟩ := hrh (probe E cap) hPlt e0 he0 (by omega)
      rw [pred_probe E hp hEcap] at hep
      rw [hEe] at hep
      cases hep
    by_cases hstart : idx = probe E cap
    · have hT1 : 1 ≤ T := by
        rcases Nat.eq_zero_or_pos T with h0 | h0
        · exfalso
          rw [h0, Nat.add_zero, Nat.mod_eq_of_lt hidx] at hTeq
          rw [hTeq] at hstart
          exact hPne hstart.symm
        · exact h0
      have hsame := rh_insert_loop_start_no_swap cap hp cap bs c idx T hidx
        hT1 (by omega) hTe hTocc bs' h
      refine ⟨probe E cap, hPlt, e0, ?_, hpd0⟩
      rw [← hstart, hsame, hstart]
      exact he0
    · have hprobeE : probe E cap = (idx + (T + 1)) % cap := by
        rw [probe_eq_mod E hp, ← hTeq, Nat.mod_add_mod, Nat.add_assoc]
      have hT1cap : T + 1 ≠ cap := by
        intro hTc
        rw [hTc, Nat.add_mod_right, Nat.mod_eq_of_lt hidx] at hprobeE
        exact hstart hprobeE.symm
      have hexcl : ∀ t, t ≤ T → probe E cap ≠ (idx + t) % cap := by
        intro t ht hh
        rw [hprobeE] at hh
        have := add_mod_left_inj idx (T + 1) t cap hc (by omega) (by omega) hh
        omega
      have hsame := rh_insert_loop_frame cap hp cap bs c idx 0 T hidx hTe
        hTocc bs' h (probe E cap) hexcl
      refine ⟨probe E cap, hPlt, e0, ?_, hpd0⟩
      rw [hsame]
      exact he0

/-! ### The backward-shift walk of deletion -/

theorem probe_ne_self (i cap : Nat) (hp : ∃ j, cap = 2 ^ j) (hcap : 2 ≤ cap)
    (hi : i < cap) : probe i cap ≠ i := by
  intro hh
  rw [probe_eq_mod i hp] at hh
  have h0 : (i + 1) % cap = (i + 0) % cap := by
    rw [Nat.add_zero]
    show (i + 1) % cap = i % cap
    rw [Nat.mod_eq_of_lt hi]
    exact hh
  have := add_mod_left_inj i 1 0 cap (by omega) (by omega) (by omega) h0
  omega

/-- Emptying a slot whose successor is a stop slot preserves the invariant. -/
theorem rhInv_set_none (bs : List (Option CellTableElem)) (cap : Nat)
    (hp : ∃ j, cap = 2 ^ j) (hlen : bs.length = cap) (hole : Nat)
    (hhole : hole < cap) (hrh : rhInv bs cap)
    (hstop : stopAt bs cap (probe hole cap)) :
    rhInv (bs.set hole none) cap := by
  intro i hi e he hpd
  by_cases hih : i = hole
  · subst hih
    rw [getD_set_self bs i none (by omega)] at he
    cases he
  · rw [getD_set_ne bs hole i none (fun hh => hih hh.symm)] at he
    obtain ⟨ep, hep, hbound⟩ := hrh i hi e he hpd
    by_cases hpi : (i + cap - 1) % cap = hole
    · exfalso
      have hiprobe : probe hole cap = i := by
        rw [← hpi]
        exact probe_pred i hp hi
      rcases hstop with hs | ⟨e', he', hpd'⟩
      · rw [hiprobe] at hs
        rw [hs] at he
        cases he
      · rw [hiprobe] at he' hpd'
        rw [he] at he'
        obtain rfl := Option.some.inj he'
        omega
    · refine ⟨ep, ?_, hbound⟩
      rw [getD_set_ne bs hole _ none (fun hh => hpi hh.symm)]
      exact hep

/-- Shifting the successor element back into the hole preserves the
invariant (the intermediate state holds the element in both slots). -/
theorem rhInv_shift_step (bs : List (Option CellTableElem)) (cap : Nat)
    (hp : ∃ j, cap = 2 ^ j) (hlen : bs.length = cap) (hole : Nat)
    (hhole : hole < cap) (hElem e : CellTableElem)
    (hh : bs.getD hole none = some hElem)
    (hje : bs.getD (probe hole cap) none = some e)
    (hpdj : 0 < probe_dist e (probe hole cap) cap) (hrh : rhInv bs cap) :
    rhInv (bs.set hole (some e)) cap := by
  have hc := cap_pos hp
  have hcap2 : 2 ≤ cap := by
    by_contra hcon
    have h1 : cap = 1 := by omega
    rw [h1, probe_dist_cap_one] at hpdj
    omega
  have hjne : probe hole cap ≠ hole := probe_ne_self hole cap hp hcap2 hhole
  have hpred : (probe hole cap + cap - 1) % cap = hole :=
    pred_probe hole hp hhole
  have hpdhole : probe_dist e hole cap =
      probe_dist e (probe hole cap) cap - 1 := by
    have hx := probe_dist_pred e (probe hole cap) hp hpdj
    rwa [hpred] at hx
  have hbound2 : probe_dist e (probe hole cap) cap ≤
      probe_dist hElem hole cap + 1 := by
    obtain ⟨ep, hep, hbound⟩ := hrh (probe hole cap) (probe_lt hole hp) e
      hje hpdj
    rw [hpred] at hep hbound
    rw [hh] at hep
    obtain rfl : hElem = ep := Option.some.inj hep
    exact hbound
  intro i hi e2 he2 hpd2
  by_cases hih : i = hole
  · subst hih
    rw [getD_set_self bs i (some e) (by omega)] at he2
    obtain rfl : e = e2 := Option.some.inj he2
    have hpdh_pos : 0 < probe_dist hElem i cap := by omega
    obtain ⟨ep2, hep2, hbound3⟩ := hrh i hi hElem hh hpdh_pos
    have hpredne : (i + cap - 1) % cap ≠ i :=
      rh_pred_ne_self i cap hp hcap2 hi
    refine ⟨ep2, ?_, ?_⟩
    · rw [getD_set_ne bs i _ (some e) (fun hh2 => hpredne hh2.symm)]
      exact hep2
    · omega
  · rw [getD_set_ne bs hole i (some e) (fun hh2 => hih hh2.symm)] at he2
    by_cases hij : i = probe hole cap
    · subst hij
      rw [hje] at he2
      obtain rfl : e = e2 := Option.some.inj he2
      refine ⟨e, ?_, ?_⟩
      · rw [hpred, getD_set_self bs hole (some e) (by omega)]
      · rw [hpred]
        omega
    · obtain ⟨ep2, hep2, hbound3⟩ := hrh i hi e2 he2 hpd2
      by_cases hpi : (i + cap - 1) % cap = hole
      · exfalso
        apply hij
        rw [← hpi]
        exact (probe_pred i hp hi).symm
      · refine ⟨ep2, ?_, hbound3⟩
        rw [getD_set_ne bs hole _ (some e) (fun hh2 => hpi hh2.symm)]
        exact hep2

/-- Main specification of the backward-shift walk: when a stop slot lies
within `fuel` steps (and within one full cycle), the walk terminates,
preserves the length and the Robin Hood invariant, removes exactly the
element that was in the hole, and keeps hashes correctly cached. -/
theorem backward_shift_main (cap : Nat) (hp : ∃ j, cap = 2 ^ j) :
    ∀ (fuel : Nat) (bs : List (Option CellTableElem)) (hole : Nat)
      (hElem : CellTableElem),
      bs.length = cap → hole < cap →
      bs.getD hole none = some hElem →
      rhInv bs cap →
      (∃ r, 1 ≤ r ∧ r ≤ fuel ∧ r ≤ cap ∧ stopAt bs cap ((hole + r) % cap)) →
      ∃ bs', backward_shift_loop cap bs hole fuel = some bs' ∧
        bs'.length = cap ∧ rhInv bs' cap ∧
        (∀ p : Option CellTableElem → Bool,
          bs'.countP p + (if p (some hElem) then 1 else 0) =
            bs.countP p + (if p none then 1 else 0)) ∧
        (hashOk bs → hashOk bs') := by
  intro fuel
  induction fuel with
  | zero =>
    intro bs hole hElem _ _ _ _ hstop
    obtain ⟨r, hr1, hr2, -, -⟩ := hstop
    omega
  | succ fuel ih =>
    intro bs hole hElem hlen hhole hhe hrh hstop
    have hc := cap_pos hp
    have hholelen : hole < bs.length := by omega
    cases hgd : bs.getD (probe hole cap) none with
    | none =>
      refine ⟨bs.set hole none,
        backward_shift_loop_empty cap bs hole fuel hgd, by simp [hlen],
        rhInv_set_none bs cap hp hlen hole hhole hrh (Or.inl hgd), ?_, ?_⟩
      · intro p
        have := countP_set p bs hole none hholelen
        rw [hhe] at this
        omega
      · intro hok
        exact hashOk_set bs hole none hok (fun e he => by cases he)
    | some ej =>
      by_cases hpd0 : probe_dist ej (probe hole cap) cap = 0
      · refine ⟨bs.set hole none,
          backward_shift_loop_pd0 cap bs hole fuel ej hgd hpd0,
          by simp [hlen],
          rhInv_set_none bs cap hp hlen hole hhole hrh
            (Or.inr ⟨ej, hgd, hpd0⟩), ?_, ?_⟩
        · intro p
          have := countP_set p bs hole none hholelen
          rw [hhe] at this
          omega
        · intro hok
          exact hashOk_set bs hole none hok (fun e he => by cases he)
      · have hpdj : 0 < probe_dist ej (probe hole cap) cap := by omega
        have hcap2 : 2 ≤ cap := by
          by_contra hcon
          have h1 : cap = 1 := by omega
          rw [h1, probe_dist_cap_one] at hpdj
          omega
        have hjne : probe hole cap ≠ hole :=
          probe_ne_self hole cap hp hcap2 hhole
        have hshift : ∀ s, (probe hole cap + s) % cap =
            (hole + (s + 1)) % cap := by
          intro s
          rw [probe_eq_mod hole hp, Nat.mod_add_mod]
          congr 1
          omega
        obtain ⟨r, hr1, hr2, hrcap, hrstop⟩ := hstop
        have hr2' : 2 ≤ r := by
          rcases Nat.lt_or_ge r 2 with hr | hr
          · exfalso
            have hreq : r = 1 := by omega
            rw [hreq] at hrstop
            have hpos : (hole + 1) % cap = probe hole cap := by
              rw [probe_eq_mod hole hp]
            rw [hpos] at hrstop
            rcases hrstop with hs | ⟨e', he', hpd'⟩
            · rw [hs] at hgd
              cases hgd
            · rw [hgd] at he'
              obtain rfl : ej = e' := Option.some.inj he'
              omega
          · exact hr
        have hbs1 : rhInv (bs.set hole (some ej)) cap :=
          rhInv_shift_step bs cap hp hlen hole hhole hElem ej hhe hgd
            hpdj hrh
        have hje1 : (bs.set hole (some ej)).getD (probe hole cap) none =
            some ej := by
          rw [getD_set_ne bs hole _ (some ej) (fun hh2 => hjne hh2.symm)]
          exact hgd
        have hstop1 : stopAt (bs.set hole (some ej)) cap
            ((probe hole cap + (r - 1)) % cap) := by
          rw [hshift (r - 1), show r - 1 + 1 = r by omega]
          rcases Nat.lt_or_ge r cap with hrlt | hrge
          · have hne : (hole + r) % cap ≠ hole := by
              intro hh2
              have h0 : (hole + r) % cap = (hole + 0) % cap := by
                rw [Nat.add_zero]
                show (hole + r) % cap = hole % cap
                rw [Nat.mod_eq_of_lt hhole]
                exact hh2
              have := add_mod_left_inj hole r 0 cap hc (by omega) (by omega) h0
              omega
            rcases hrstop with hs | ⟨e', he', hpd'⟩
            · exact Or.inl (by
                rw [getD_set_ne bs hole _ (some ej) (fun hh2 => hne hh2.symm)]
                exact hs)
            · exact Or.inr ⟨e', by
                rw [getD_set_ne bs hole _ (some ej) (fun hh2 => hne hh2.symm)]
                exact he', hpd'⟩
          · have hreq : r = cap := by omega
            have hpos : (hole + r) % cap = hole := by
              rw [hreq, Nat.add_mod_right, Nat.mod_eq_of_lt hhole]
            rw [hpos] at hrstop ⊢
            rcases hrstop with hs | ⟨e', he', hpd'⟩
            · rw [hs] at hhe
              cases hhe
            · rw [hhe] at he'
              obtain rfl : hElem = e' := Option.some.inj he'
              -- pd hElem hole = 0, so pd ej j = 1, so ej lands at pd 0
              have hsupp := hrh (probe hole cap) (probe_lt hole hp) ej hgd hpdj
              obtain ⟨ep, hep, hbound⟩ := hsupp
              rw [pred_probe hole hp hhole] at hep hbound
              rw [hhe] at hep
              obtain rfl : hElem = ep := Option.some.inj hep
              have hpdhole : probe_dist ej hole cap =
                  probe_dist ej (probe hole cap) cap - 1 := by
                have hx := probe_dist_pred ej (probe hole cap) hp hpdj
                rwa [pred_probe hole hp hhole] at hx
              refine Or.inr ⟨ej, ?_, ?_⟩
              · exact getD_set_self bs hole (some ej) hholelen
              · omega
        obtain ⟨bs', hbs', hlen', hrh', hcount', hhash'⟩ := ih
          (bs.set hole (some ej)) (probe hole cap) ej (by simp [hlen])
          (probe_lt hole hp) hje1 hbs1 ⟨r - 1, by omega, by omega, by omega,
            hstop1⟩
        have hloop : backward_shift_loop cap bs hole (fuel + 1) = some bs' := by
          rw [backward_shift_loop_step cap bs hole fuel ej hgd hpd0]
          exact hbs'
        refine ⟨bs', hloop, hlen', hrh', ?_, ?_⟩
        · intro p
          have h1 := hcount' p
          have h2 := countP_set p bs hole (some ej) hholelen
          rw [hhe] at h2
          omega
        · intro hok
          apply hhash'
          apply hashOk_set bs hole (some ej) hok
          intro e he
          obtain rfl : ej = e := Option.some.inj he
          exact hok ej (getD_mem bs (probe hole cap) ej hgd)

/-! ### Unfolding the table operations -/

theorem cell_table_get_none (t : CellTable) (k : Point2D)
    (h : find_elem t k (bucket_idx (hash_point2d k) t.num_buckets) = none) :
    cell_table_get t k = none := by
  rw [cell_table_get, h]

theorem cell_table_get_some (t : CellTable) (k : Point2D) (fi : Nat)
    (fe : CellTableElem)
    (h : find_elem t k (bucket_idx (hash_point2d k) t.num_buckets) =
      some (fi, fe)) :
    cell_table_get t k = some fe.value := by
  rw [cell_table_get, h]

theorem cell_table_contains_false (t : CellTable) (k : Point2D)
    (h : find_elem t k (bucket_idx (hash_point2d k) t.num_buckets) = none) :
    cell_table_contains t k = false := by
  rw [cell_table_contains, h]
  rfl

theorem cell_table_contains_true (t : CellTable) (k : Point2D) (fi : Nat)
    (fe : CellTableElem)
    (h : find_elem t k (bucket_idx (hash_point2d k) t.num_buckets) =
      some (fi, fe)) :
    cell_table_contains t k = true := by
  rw [cell_table_contains, h]
  rfl

theorem cell_table_put_update (t : CellTable) (allocOk : Bool) (k : Point2D)
    (v : Cell) (fi : Nat) (fe : CellTableElem)
    (h : find_elem t k (bucket_idx (hash_point2d k) t.num_buckets) =
      some (fi, fe)) :
    cell_table_put allocOk t k v =
      some ({ t with
        buckets := t.buckets.set fi (some { fe with value := v }) }, true) := by
  rw [cell_table_put]
  rw [h]

theorem cell_table_put_nogrow (t : CellTable) (allocOk : Bool) (k : Point2D)
    (v : Cell)
    (h : find_elem t k (bucket_idx (hash_point2d k) t.num_buckets) = none)
    (hload : ¬ load_exceeded t) :
    cell_table_put allocOk t k v =
      put_insert t k (hash_point2d k) v
        (bucket_idx (hash_point2d k) t.num_buckets) := by
  rw [cell_table_put]
  rw [h]
  dsimp only
  rw [if_neg hload]

theorem cell_table_put_allocfail (t : CellTable) (k : Point2D) (v : Cell)
    (h : find_elem t k (bucket_idx (hash_point2d k) t.num_buckets) = none)
    (hload : load_exceeded t) :
    cell_table_put false t k v = some (t, false) := by
  rw [cell_table_put]
  rw [h]
  dsimp only
  rw [if_pos hload]
  simp

theorem cell_table_put_grow (t : CellTable) (k : Point2D) (v : Cell)
    (t1 : CellTable)
    (h : find_elem t k (bucket_idx (hash_point2d k) t.num_buckets) = none)
    (hload : load_exceeded t) (hre : rehash t = some t1) :
    cell_table_put true t k v =
      put_insert t1 k (hash_point2d k) v
        (bucket_idx (hash_point2d k) t.num_buckets) := by
  rw [cell_table_put]
  rw [h]
  dsimp only
  rw [if_pos hload]
  rw [hre]
  simp

theorem put_insert_some (t : CellTable) (k : Point2D) (hv : Nat) (v : Cell)
    (idx : Nat) (bs' : List (Option CellTableElem))
    (h : rh_insert_loop t.num_buckets t.buckets
      { key := k, value := v, hash_val := hv } idx 0 t.num_buckets =
      some bs') :
    put_insert t k hv v idx =
      some ({ t with buckets := bs', num_elems := t.num_elems + 1 },
        true) := by
  rw [put_insert]
  rw [h]

theorem cell_table_remove_notfound (t : CellTable) (k : Point2D)
    (h : find_elem t k (bucket_idx (hash_point2d k) t.num_buckets) = none) :
    cell_table_remove t k = some (t, none) := by
  rw [cell_table_remove]
  rw [h]

theorem cell_table_remove_found (t : CellTable) (k : Point2D) (fi : Nat)
    (fe : CellTableElem) (bs' : List (Option CellTableElem))
    (h : find_elem t k (bucket_idx (hash_point2d k) t.num_buckets) =
      some (fi, fe))
    (hloop : backward_shift_loop t.num_buckets t.buckets fi t.num_buckets =
      some bs') :
    cell_table_remove t k =
      some ({ t with buckets := bs', num_elems := t.num_elems - 1 },
        some fe.value) := by
  rw [cell_table_remove]
  rw [h]
  dsimp only
  rw [hloop]

/-- Updating only the value of an occupied slot (cached hash and key
unchanged) preserves the Robin Hood invariant. -/
theorem rhInv_set_value (bs : List (Option CellTableElem)) (cap : Nat)
    (hlen : bs.length = cap) (i : Nat) (hi : i < cap)
    (elem : CellTableElem) (v : Cell)
    (he : bs.getD i none = some elem) (hrh : rhInv bs cap) :
    rhInv (bs.set i (some { elem with value := v })) cap := by
  intro i2 hi2 e2 he2 hpd2
  by_cases hii : i2 = i
  · subst hii
    rw [getD_set_self bs i2 _ (by omega)] at he2
    obtain rfl : ({ elem with value := v } : CellTableElem) = e2 :=
      Option.some.inj he2
    have hpdeq : probe_dist ({ elem with value := v } : CellTableElem) i2 cap =
      probe_dist elem i2 cap := rfl
    rw [hpdeq] at hpd2 ⊢
    obtain ⟨ep, hep, hbound⟩ := hrh i2 hi2 elem he hpd2
    by_cases hpi : (i2 + cap - 1) % cap = i2
    · rw [hpi] at hep ⊢
      rw [he] at hep
      obtain rfl : elem = ep := Option.some.inj hep
      refine ⟨{ elem with value := v }, ?_, ?_⟩
      · exact getD_set_self bs i2 _ (by omega)
      · rw [show probe_dist ({ elem with value := v } : CellTableElem) i2 cap =
            probe_dist elem i2 cap from rfl]
        omega
    · refine ⟨ep, ?_, hbound⟩
      rw [getD_set_ne bs i2 _ _ (fun hh => hpi hh.symm)]
      exact hep
  · rw [getD_set_ne bs i i2 _ (fun hh => hii hh.symm)] at he2
    obtain ⟨ep, hep, hbound⟩ := hrh i2 hi2 e2 he2 hpd2
    by_cases hpi : (i2 + cap - 1) % cap = i
    · rw [hpi] at hep
      rw [he] at hep
      obtain rfl : elem = ep := Option.some.inj hep
      refine ⟨{ elem with value := v }, ?_, ?_⟩
      · rw [hpi]
        exact getD_set_self bs i _ (by omega)
      · rw [show probe_dist ({ elem with value := v } : CellTableElem)
            ((i2 + cap - 1) % cap) cap =
            probe_dist elem ((i2 + cap - 1) % cap) cap from rfl]
        exact hbound
    · refine ⟨ep, ?_, hbound⟩
      rw [getD_set_ne bs i _ _ (fun hh => hpi hh.symm)]
      exact hep

/-! ### Conservation wrappers -/

theorem cons_numOcc_remove (bs bs' : List (Option CellTableElem))
    (x : CellTableElem)
    (h : ∀ p : Option CellTableElem → Bool,
      bs'.countP p + (if p (some x) then 1 else 0) =
        bs.countP p + (if p none then 1 else 0)) :
    numOcc bs' + 1 = numOcc bs := by
  have hh := h (fun s => s.isSome)
  simp at hh
  rw [numOcc, numOcc]
  omega

theorem cons_countKey_remove (bs bs' : List (Option CellTableElem))
    (x : CellTableElem)
    (h : ∀ p : Option CellTableElem → Bool,
      bs'.countP p + (if p (some x) then 1 else 0) =
        bs.countP p + (if p none then 1 else 0)) :
    ∀ kk, countKey bs' kk + (if x.key = kk then 1 else 0) =
      countKey bs kk := by
  intro kk
  have hh := h (fun s =>
    match s with
    | some e => e.key = kk
    | none => false)
  rw [countKey, countKey]
  by_cases hkk : x.key = kk
  · simp only [hkk] at hh
    simp at hh
    rw [if_pos hkk]
    omega
  · simp only at hh
    rw [if_neg hkk]
    simp [hkk] at hh
    omega

theorem cons_numOcc_insert (bs bs' : List (Option CellTableElem))
    (c : CellTableElem)
    (h : ∀ p : Option CellTableElem → Bool,
      bs'.countP p + (if p none then 1 else 0) =
        bs.countP p + (if p (some c) then 1 else 0)) :
    numOcc bs' = numOcc bs + 1 := by
  have hh := h (fun s => s.isSome)
  simp at hh
  rw [numOcc, numOcc]
  omega

theorem cons_countKey_insert (bs bs' : List (Option CellTableElem))
    (c : CellTableElem)
    (h : ∀ p : Option CellTableElem → Bool,
      bs'.countP p + (if p none then 1 else 0) =
        bs.countP p + (if p (some c) then 1 else 0)) :
    ∀ kk, countKey bs' kk = countKey bs kk +
      (if c.key = kk then 1 else 0) := by
  intro kk
  have hh := h (fun s =>
    match s with
    | some e => e.key = kk
    | none => false)
  rw [countKey, countKey]
  by_cases hkk : c.key = kk
  · rw [if_pos hkk]
    simp [hkk] at hh
    omega
  · rw [if_neg hkk]
    simp [hkk] at hh
    omega

/-! ### Deletion: full specification on well-formed tables -/

theorem cell_table_remove_wf (t : CellTable) (k : Point2D) (hwf : WF t) :
    ∃ t', cell_table_remove t k = some (t', cell_table_get t k) ∧ WF t' ∧
      (cell_table_contains t k = true →
        t'.num_elems = t.num_elems - 1 ∧
        cell_table_contains t' k = false) ∧
      (cell_table_contains t k = false → t' = t) := by
  obtain ⟨hlen, hpow, hcount, hlf0, hlf1, hhash, huniq, hrh, hfull⟩ := hwf
  have hc := cap_pos hpow
  cases hfind : find_elem t k (bucket_idx (hash_point2d k) t.num_buckets) with
  | none =>
    refine ⟨t, ?_, ?_, ?_, fun _ => rfl⟩
    · rw [cell_table_remove_notfound t k hfind, cell_table_get_none t k hfind]
    · exact ⟨hlen, hpow, hcount, hlf0, hlf1, hhash, huniq, hrh, hfull⟩
    · intro hcon
      rw [cell_table_contains_false t k hfind] at hcon
      cases hcon
  | some r =>
    obtain ⟨fi, fe⟩ := r
    obtain ⟨hfi, hfe, hkey⟩ := find_elem_sound t k fi fe hpow hfind
    have hfilen : fi < t.buckets.length := by omega
    have hstop : ∃ rr, 1 ≤ rr ∧ rr ≤ t.num_buckets ∧ rr ≤ t.num_buckets ∧
        stopAt t.buckets t.num_buckets ((fi + rr) % t.num_buckets) := by
      rcases Nat.lt_or_ge (numOcc t.buckets) t.num_buckets with hlt | hge
      · obtain ⟨j, hj, hje⟩ := exists_empty_of_numOcc_lt t.buckets (by omega)
        have hjcap : j < t.num_buckets := by omega
        have hjne : j ≠ fi := by
          intro hh
          rw [hh, hfe] at hje
          cases hje
        obtain ⟨rr, hrr, hre⟩ := offset_exists fi j t.num_buckets hc hjcap hfi
        have hrr1 : rr ≠ 0 := by
          intro hh
          rw [hh, Nat.add_zero, Nat.mod_eq_of_lt hfi] at hre
          exact hjne hre.symm
        refine ⟨rr, by omega, by omega, by omega, ?_⟩
        rw [hre]
        exact Or.inl hje
      · have hfull2 : t.num_elems = t.num_buckets := by
          have := numOcc_le_length t.buckets
          omega
        obtain ⟨m, hm, em, hem, hpdm⟩ := hfull hfull2
        by_cases hmf : m = fi
        · refine ⟨t.num_buckets, by omega, le_rfl, le_rfl, ?_⟩
          rw [Nat.add_mod_right, Nat.mod_eq_of_lt hfi]
          subst hmf
          exact Or.inr ⟨em, hem, hpdm⟩
        · obtain ⟨rr, hrr, hre⟩ := offset_exists fi m t.num_buckets hc hm hfi
          have hrr1 : rr ≠ 0 := by
            intro hh
            rw [hh, Nat.add_zero, Nat.mod_eq_of_lt hfi] at hre
            exact hmf hre.symm
          refine ⟨rr, by omega, by omega, by omega, ?_⟩
          rw [hre]
          exact Or.inr ⟨em, hem, hpdm⟩
    obtain ⟨bs', hloop, hlen', hrh', hcount', hhash'⟩ :=
      backward_shift_main t.num_buckets hpow t.num_buckets t.buckets fi fe
        hlen hfi hfe hrh hstop
    have hnum : numOcc bs' + 1 = numOcc t.buckets :=
      cons_numOcc_remove t.buckets bs' fe hcount'
    have hck := cons_countKey_remove t.buckets bs' fe hcount'
    have hck0 : countKey bs' k = 0 := by
      have h1 := hck k
      rw [if_pos hkey] at h1
      have h2 : 1 ≤ countKey t.buckets k :=
        countKey_pos t.buckets fi fe k hfilen hfe hkey
      have h3 := huniq k
      omega
    have hne1 : 1 ≤ t.num_elems := by
      have := countKey_pos t.buckets fi fe k hfilen hfe hkey
      have h4 := huniq k
      omega
    refine ⟨{ t with buckets := bs', num_elems := t.num_elems - 1 },
      ?_, ?_, ?_, ?_⟩
    · rw [cell_table_remove_found t k fi fe bs' hfind hloop,
        cell_table_get_some t k fi fe hfind]
    · refine ⟨hlen', hpow, ?_, hlf0, hlf1, hhash' hhash, ?_, hrh', ?_⟩
      · show numOcc bs' = t.num_elems - 1
        omega
      · intro kk
        show countKey bs' kk ≤ 1
        have h1 := hck kk
        have h2 := huniq kk
        by_cases hkk : fe.key = kk
        · rw [if_pos hkk] at h1
          omega
        · rw [if_neg hkk] at h1
          omega
      · intro hfull2
        exfalso
        have h5 : t.num_elems - 1 = t.num_buckets := hfull2
        have h6 := numOcc_le_length t.buckets
        omega
    · intro _
      refine ⟨rfl, ?_⟩
      cases hfind2 : find_elem
          ({ t with buckets := bs', num_elems := t.num_elems - 1 }) k
          (bucket_idx (hash_point2d k) t.num_buckets) with
      | none =>
        exact cell_table_contains_false _ k hfind2
      | some r2 =>
        exfalso
        obtain ⟨fi2, fe2⟩ := r2
        obtain ⟨hfi2, hfe2, hkey2⟩ :=
          find_elem_sound
            ({ t with buckets := bs', num_elems := t.num_elems - 1 }) k
            fi2 fe2 hpow hfind2
        have h7 : 1 ≤ countKey bs' k := by
          apply countKey_pos bs' fi2 fe2 k ?_ hfe2 hkey2
          show fi2 < bs'.length
          have h8 : ({ t with
              buckets := bs',
              num_elems := t.num_elems - 1 } : CellTable).num_buckets =
              t.num_buckets := rfl
          omega
        omega
    · intro hcon
      rw [cell_table_contains_true t k fi fe hfind] at hcon
      cases hcon

/-! ### Insertion and update: well-formedness preservation -/

/-- A table whose load is within its sub-`1` load factor has a free slot:
the element count is strictly below the capacity. -/
theorem count_lt_of_not_exceeded (t : CellTable)
    (hlf1 : t.load_factor < 1) (hc : 0 < t.num_buckets)
    (hle : ¬ load_exceeded t) : t.num_elems < t.num_buckets := by
  rw [load_exceeded, not_lt] at hle
  have hden : (0 : ℚ) < (t.load_factor.den : ℚ) := by
    exact_mod_cast t.load_factor.den_pos
  have hnd : t.load_factor.num < (t.load_factor.den : Int) := by
    have h := hlf1
    rw [show t.load_factor = (t.load_factor.num : ℚ) / t.load_factor.den
        from (Rat.num_div_den _).symm, div_lt_one hden] at h
    exact_mod_cast h
  have hdenz : (0 : Int) < (t.load_factor.den : Int) := by
    exact_mod_cast t.load_factor.den_pos
  have hcz : (0 : Int) < (t.num_buckets : Int) := by exact_mod_cast hc
  have h1 : t.load_factor.num * (t.num_buckets : Int) <
      (t.load_factor.den : Int) * t.num_buckets :=
    mul_lt_mul_of_pos_right hnd hcz
  have h2 : (t.num_elems : Int) * t.load_factor.den <
      (t.load_factor.den : Int) * t.num_buckets := by
    refine lt_of_le_of_lt ?_ h1
    exact_mod_cast hle
  rw [mul_comm ((t.load_factor.den : Int)) _] at h2
  have h3 : (t.num_elems : Int) < t.num_buckets :=
    lt_of_mul_lt_mul_right h2 (le_of_lt hdenz)
  exact_mod_cast h3

/-- A `cell_table_put` that does not take the growth path — the key is
already present (the update branch returns before the load check), or the
load is within the threshold — preserves well-formedness. -/
theorem cell_table_put_wf (t : CellTable) (allocOk : Bool) (k : Point2D)
    (v : Cell) (t' : CellTable) (ok : Bool) (hwf : WF t)
    (hng : ¬ load_exceeded t ∨
      (find_elem t k (bucket_idx (hash_point2d k) t.num_buckets)).isSome)
    (hput : cell_table_put allocOk t k v = some (t', ok)) : WF t' := by
  obtain ⟨hlen, hpow, hcount, hlf0, hlf1, hhash, huniq, hrh, hfull⟩ := hwf
  have hc := cap_pos hpow
  cases hfind : find_elem t k (bucket_idx (hash_point2d k) t.num_buckets) with
  | some r =>
    obtain ⟨fi, fe⟩ := r
    obtain ⟨hfi, hfe, hkey⟩ := find_elem_sound t k fi fe hpow hfind
    rw [cell_table_put_update t allocOk k v fi fe hfind] at hput
    obtain ⟨rfl, rfl⟩ : t' = { t with
        buckets := t.buckets.set fi (some { fe with value := v }) } ∧
        ok = true := by
      have h1 := (Option.some.inj hput).symm
      exact ⟨congrArg Prod.fst h1, congrArg Prod.snd h1⟩
    refine ⟨?_, hpow, ?_, hlf0, hlf1, ?_, ?_, ?_, ?_⟩
    · show (t.buckets.set fi (some { fe with value := v })).length =
        t.num_buckets
      rw [List.length_set]
      exact hlen
    · show numOcc (t.buckets.set fi (some { fe with value := v })) =
        t.num_elems
      have h2 := countP_set (fun s => s.isSome) t.buckets fi
        (some { fe with value := v }) (by omega)
      rw [hfe] at h2
      simp only [Option.isSome_some, if_pos] at h2
      rw [numOcc] at hcount ⊢
      omega
    · show hashOk (t.buckets.set fi (some { fe with value := v }))
      refine hashOk_set t.buckets fi _ hhash ?_
      intro e he
      obtain rfl : ({ fe with value := v } : CellTableElem) = e :=
        Option.some.inj he
      exact hhash fe (getD_mem t.buckets fi fe hfe)
    · intro kk
      show countKey (t.buckets.set fi (some { fe with value := v })) kk ≤ 1
      have h2 := countP_set (fun s =>
        match s with
        | some e => e.key = kk
        | none => false) t.buckets fi (some { fe with value := v })
        (by omega)
      rw [hfe] at h2
      have h6 := huniq kk
      rw [countKey] at h6 ⊢
      by_cases hkk : fe.key = kk
      · rw [if_pos (by simpa using hkk)] at h2
        omega
      · rw [if_neg (by simpa using hkk)] at h2
        omega
    · show rhInv (t.buckets.set fi (some { fe with value := v }))
        t.num_buckets
      exact rhInv_set_value t.buckets t.num_buckets hlen fi hfi fe v hfe hrh
    · intro hfull2
      have hfull3 : t.num_elems = t.num_buckets := hfull2
      obtain ⟨i, hi, e, he, hpd⟩ := hfull hfull3
      show ∃ i, i < t.num_buckets ∧ ∃ e,
        (t.buckets.set fi (some { fe with value := v })).getD i none =
          some e ∧ probe_dist e i t.num_buckets = 0
      by_cases hif : i = fi
      · subst hif
        obtain rfl : e = fe := by
          rw [he] at hfe
          exact Option.some.inj hfe
        refine ⟨i, hi, { e with value := v }, ?_, ?_⟩
        · exact getD_set_self t.buckets i _ (by omega)
        · rw [show probe_dist ({ e with value := v } : CellTableElem) i
              t.num_buckets = probe_dist e i t.num_buckets from rfl]
          exact hpd
      · refine ⟨i, hi, e, ?_, hpd⟩
        rw [getD_set_ne t.buckets fi i _ (fun hh => hif hh.symm)]
        exact he
  | none =>
    rcases hng with hload | hsome
    · rw [cell_table_put_nogrow t allocOk k v hfind hload] at hput
      have hlt : t.num_elems < t.num_buckets :=
        count_lt_of_not_exceeded t hlf1 hc hload
      obtain ⟨j, hj, hje⟩ := exists_empty_of_numOcc_lt t.buckets (by omega)
      have hjcap : j < t.num_buckets := by omega
      have hidx : bucket_idx (hash_point2d k) t.num_buckets < t.num_buckets :=
        bucket_idx_lt _ hpow
      obtain ⟨r, hr, hre⟩ := offset_exists
        (bucket_idx (hash_point2d k) t.num_buckets) j t.num_buckets hc
        hjcap hidx
      have hempty : t.buckets.getD
          ((bucket_idx (hash_point2d k) t.num_buckets + r) % t.num_buckets)
          none = none := by
        rw [hre]
        exact hje
      obtain ⟨bs2, hloop, hlen2, hcons⟩ := rh_insert_loop_basic t.num_buckets
        hpow t.num_buckets t.buckets
        { key := k, value := v, hash_val := hash_point2d k }
        (bucket_idx (hash_point2d k) t.num_buckets) 0 hlen hidx
        ⟨r, by omega, hempty⟩
      rw [put_insert_some t k (hash_point2d k) v
        (bucket_idx (hash_point2d k) t.num_buckets) bs2 hloop] at hput
      obtain ⟨rfl, rfl⟩ : t' = { t with
          buckets := bs2, num_elems := t.num_elems + 1 } ∧ ok = true := by
        have h1 := (Option.some.inj hput).symm
        exact ⟨congrArg Prod.fst h1, congrArg Prod.snd h1⟩
      have hK0 : countKey t.buckets k = 0 := by
        by_contra hK
        obtain ⟨i, hi, e, he, hek⟩ :=
          exists_slot_of_countKey_pos t.buckets k (by omega)
        have h3 := find_elem_complete t k hpow hlen hrh hhash huniq i e
          (by omega) he hek
        rw [hfind] at h3
        cases h3
      refine ⟨hlen2, hpow, ?_, hlf0, hlf1, ?_, ?_, ?_, ?_⟩
      · show numOcc bs2 = t.num_elems + 1
        have h4 := cons_numOcc_insert t.buckets bs2 _ hcons
        omega
      · show hashOk bs2
        exact rh_insert_loop_hashOk t.num_buckets t.num_buckets t.buckets
          _ _ _ bs2 hloop hhash rfl
      · intro kk
        show countKey bs2 kk ≤ 1
        have h5 := cons_countKey_insert t.buckets bs2 _ hcons kk
        have h6 := huniq kk
        by_cases hkk : k = kk
        · rw [if_pos (show ({ key := k, value := v, hash_val := hash_point2d k } : CellTableElem).key = kk from hkk)] at h5
          subst hkk
          omega
        · rw [if_neg (show ¬ ({ key := k, value := v, hash_val := hash_point2d k } : CellTableElem).key = kk from hkk)] at h5
          omega
      · show rhInv bs2 t.num_buckets
        refine rh_insert_loop_rh t.num_buckets hpow t.num_buckets t.buckets
          _ _ 0 hlen hidx (by omega) ?_ ?_ ⟨r, by omega, hempty, by omega⟩
          hrh ?_ bs2 hloop
        · intro _
          exact probe_dist_home
            { key := k, value := v, hash_val := hash_point2d k } hpow
        · intro h0
          exact absurd h0 (by omega)
        · intro h1 _
          exact absurd h1 (by omega)
      · intro hfull2
        have hfull3 : t.num_elems + 1 = t.num_buckets := hfull2
        show ∃ i, i < t.num_buckets ∧ ∃ e, bs2.getD i none = some e ∧
          probe_dist e i t.num_buckets = 0
        exact rh_insert_loop_full_pd0 t.num_buckets hpow t.buckets
          _ _ bs2 hlen hidx hrh (by omega) hloop
    · rw [hfind] at hsome
      cases hsome

/-! ### Creation, clearing and reachability -/

/-- `cell_table_create` only returns well-formed tables. -/
theorem cell_table_create_wf (n : Nat) (lf : ℚ) (t : CellTable)
    (h : cell_table_create n lf = some t) : WF t := by
  rw [cell_table_create] at h
  by_cases h1 : lf ≤ 0 ∨ 1 ≤ lf
  · rw [if_pos h1] at h
    cases h
  · rw [if_neg h1] at h
    by_cases h2 : n = 0
    · rw [if_pos h2] at h
      cases h
    · rw [if_neg h2] at h
      dsimp only at h
      obtain rfl := Option.some.inj h
      push_neg at h1
      obtain ⟨hl0, hl1⟩ := h1
      have hcp : ∃ k, ceil_pow2 n = 2 ^ k := ceil_pow2_is_pow2 n (by omega)
      have hc := cap_pos hcp
      refine ⟨?_, hcp, ?_, hl0, hl1, ?_, ?_, ?_, ?_⟩
      · show (List.replicate (ceil_pow2 n)
          (none : Option CellTableElem)).length = ceil_pow2 n
        exact List.length_replicate _ _
      · show numOcc (List.replicate (ceil_pow2 n) none) = 0
        exact countP_replicate_none _ rfl _
      · intro e he
        exfalso
        rw [List.mem_replicate] at he
        exact Option.noConfusion he.2
      · intro kk
        show countKey (List.replicate (ceil_pow2 n) none) kk ≤ 1
        rw [countKey, countP_replicate_none _ rfl]
        omega
      · intro i hi e he _
        exfalso
        rw [getD_replicate] at he
        cases he
      · intro hfull2
        exfalso
        have h3 : (0 : Nat) = ceil_pow2 n := hfull2
        omega

/-- `cell_table_clear` preserves well-formedness. -/
theorem cell_table_clear_wf (t : CellTable) (hwf : WF t) :
    WF (cell_table_clear t) := by
  obtain ⟨hlen, hpow, _, hlf0, hlf1, _, _, _, _⟩ := hwf
  have hc := cap_pos hpow
  refine ⟨?_, hpow, ?_, hlf0, hlf1, ?_, ?_, ?_, ?_⟩
  · show (t.buckets.map (fun _ => (none : Option CellTableElem))).length =
      t.num_buckets
    rw [List.length_map]
    exact hlen
  · show numOcc (t.buckets.map (fun _ => none)) = 0
    exact countP_map_none _ rfl _
  · intro e he
    exfalso
    have he2 : some e ∈ t.buckets.map
        (fun _ => (none : Option CellTableElem)) := he
    rw [List.mem_map] at he2
    obtain ⟨a, _, ha⟩ := he2
    cases ha
  · intro kk
    show countKey (t.buckets.map (fun _ => none)) kk ≤ 1
    rw [countKey, countP_map_none _ rfl]
    omega
  · intro i hi e he _
    exfalso
    have he2 : (t.buckets.map
        (fun _ => (none : Option CellTableElem))).getD i none = some e := he
    rw [getD_map_none] at he2
    cases he2
  · intro hfull2
    exfalso
    have h3 : (0 : Nat) = t.num_buckets := hfull2
    omega

/-- Every table reachable without taking the growth path is well-formed. -/
theorem reachableNG_wf (t : CellTable) (h : ReachableNG t) : WF t := by
  induction h with
  | create n lf t hc =>
    exact cell_table_create_wf n lf t hc
  | put t allocOk key value t' hr hput hng ih =>
    exact cell_table_put_wf t allocOk key value t' true ih hng hput
  | remove t key t' v hr hrm ih =>
    obtain ⟨t2, hrm2, hwf2, _, _⟩ := cell_table_remove_wf t key ih
    rw [hrm] at hrm2
    have h1 := Option.some.inj hrm2
    obtain rfl : t' = t2 := congrArg Prod.fst h1
    exact hwf2
  | clear t hr ih =>
    exact cell_table_clear_wf t ih

/-! ### Rehashing: totality and hash preservation -/

theorem rehash_loop_nil (new_cap : Nat) (acc : List (Option CellTableElem)) :
    rehash_loop new_cap [] acc = some acc := rfl

theorem rehash_loop_none (new_cap : Nat)
    (rest acc : List (Option CellTableElem)) :
    rehash_loop new_cap (none :: rest) acc = rehash_loop new_cap rest acc :=
  rfl

theorem rehash_loop_some_ok (new_cap : Nat) (e : CellTableElem)
    (rest acc acc2 : List (Option CellTableElem))
    (h : rh_insert_loop new_cap acc e (bucket_idx e.hash_val new_cap) 0
      new_cap = some acc2) :
    rehash_loop new_cap (some e :: rest) acc =
      rehash_loop new_cap rest acc2 := by
  simp only [rehash_loop]
  rw [h]

theorem rehash_loop_some_fail (new_cap : Nat) (e : CellTableElem)
    (rest acc : List (Option CellTableElem))
    (h : rh_insert_loop new_cap acc e (bucket_idx e.hash_val new_cap) 0
      new_cap = none) :
    rehash_loop new_cap (some e :: rest) acc = none := by
  simp only [rehash_loop]
  rw [h]

theorem rehash_some (t : CellTable) (bs1 : List (Option CellTableElem))
    (h : rehash_loop (t.num_buckets * 2) t.buckets
      (List.replicate (t.num_buckets * 2) none) = some bs1) :
    rehash t =
      some { t with num_buckets := t.num_buckets * 2, buckets := bs1 } := by
  rw [rehash]
  rw [h]

theorem numOcc_cons_none (rest : List (Option CellTableElem)) :
    numOcc (none :: rest) = numOcc rest := by
  simp [numOcc]

theorem numOcc_cons_some (e : CellTableElem)
    (rest : List (Option CellTableElem)) :
    numOcc (some e :: rest) = numOcc rest + 1 := by
  simp [numOcc, List.countP_cons]

/-- The rehashing walk terminates successfully whenever the elements fit in
the new array with room to spare, preserving the array length and the
occupancy count. -/
theorem rehash_loop_total (new_cap : Nat) (hp : ∃ j, new_cap = 2 ^ j) :
    ∀ (old acc : List (Option CellTableElem)),
      acc.length = new_cap →
      numOcc acc + numOcc old ≤ new_cap →
      ∃ acc', rehash_loop new_cap old acc = some acc' ∧
        acc'.length = new_cap ∧
        numOcc acc' = numOcc acc + numOcc old := by
  intro old
  induction old with
  | nil =>
    intro acc hlen _
    refine ⟨acc, rehash_loop_nil new_cap acc, hlen, ?_⟩
    simp [numOcc]
  | cons a rest ih =>
    intro acc hlen hcnt
    cases a with
    | none =>
      rw [numOcc_cons_none] at hcnt
      obtain ⟨acc', h1, h2, h3⟩ := ih acc hlen hcnt
      refine ⟨acc', ?_, h2, ?_⟩
      · rw [rehash_loop_none]
        exact h1
      · rw [numOcc_cons_none]
        exact h3
    | some e =>
      rw [numOcc_cons_some] at hcnt
      have hc := cap_pos hp
      obtain ⟨j, hj, hje⟩ := exists_empty_of_numOcc_lt acc (by omega)
      obtain ⟨r, hr, hre⟩ := offset_exists (bucket_idx e.hash_val new_cap) j
        new_cap hc (by omega) (bucket_idx_lt _ hp)
      obtain ⟨acc2, hloop, hlen2, hcons⟩ := rh_insert_loop_basic new_cap hp
        new_cap acc e (bucket_idx e.hash_val new_cap) 0 hlen
        (bucket_idx_lt _ hp) ⟨r, by omega, by rw [hre]; exact hje⟩
      have hnum2 : numOcc acc2 = numOcc acc + 1 :=
        cons_numOcc_insert acc acc2 e hcons
      obtain ⟨acc', h1, h2, h3⟩ := ih acc2 hlen2 (by omega)
      refine ⟨acc', ?_, h2, ?_⟩
      · rw [rehash_loop_some_ok new_cap e rest acc acc2 hloop]
        exact h1
      · rw [numOcc_cons_some]
        omega

/-- `rehash` succeeds on any table whose bucket array is intact: the new
array has twice the capacity and the same occupancy. -/
theorem rehash_total (t : CellTable) (hlen : t.buckets.length = t.num_buckets)
    (hpow : ∃ j, t.num_buckets = 2 ^ j) :
    ∃ bs1, rehash t =
        some { t with num_buckets := t.num_buckets * 2, buckets := bs1 } ∧
      bs1.length = t.num_buckets * 2 ∧ numOcc bs1 = numOcc t.buckets := by
  obtain ⟨j, hj⟩ := hpow
  have hp2 : ∃ j, t.num_buckets * 2 = 2 ^ j :=
    ⟨j + 1, by rw [hj]; ring⟩
  have hocc : numOcc t.buckets ≤ t.num_buckets := by
    have := numOcc_le_length t.buckets
    omega
  have hc : 0 < t.num_buckets := by rw [hj]; exact Nat.pos_pow_of_pos _ (by omega)
  have hrep0 : numOcc (List.replicate (t.num_buckets * 2)
      (none : Option CellTableElem)) = 0 :=
    countP_replicate_none _ rfl _
  obtain ⟨acc', h1, h2, h3⟩ := rehash_loop_total (t.num_buckets * 2) hp2
    t.buckets (List.replicate (t.num_buckets * 2) none)
    (List.length_replicate _ _) (by omega)
  refine ⟨acc', rehash_some t acc' h1, h2, by omega⟩

theorem hashOk_replicate (n : Nat) :
    hashOk (List.replicate n (none : Option CellTableElem)) := by
  intro e he
  rw [List.mem_replicate] at he
  exact Option.noConfusion he.2

theorem hashOk_cons (a : Option CellTableElem)
    (rest : List (Option CellTableElem)) (h : hashOk (a :: rest)) :
    hashOk rest := by
  intro e he
  exact h e (List.mem_cons_of_mem a he)

/-- The rehashing walk preserves correctly cached hashes. -/
theorem rehash_loop_hashOk (new_cap : Nat) :
    ∀ (old acc acc' : List (Option CellTableElem)),
      rehash_loop new_cap old acc = some acc' →
      hashOk old → hashOk acc → hashOk acc' := by
  intro old
  induction old with
  | nil =>
    intro acc acc' h _ hacc
    rw [rehash_loop_nil] at h
    obtain rfl := Option.some.inj h
    exact hacc
  | cons a rest ih =>
    intro acc acc' h hold hacc
    cases a with
    | none =>
      rw [rehash_loop_none] at h
      exact ih acc acc' h (hashOk_cons _ _ hold) hacc
    | some e =>
      cases hloop : rh_insert_loop new_cap acc e
          (bucket_idx e.hash_val new_cap) 0 new_cap with
      | none =>
        rw [rehash_loop_some_fail new_cap e rest acc hloop] at h
        cases h
      | some acc2 =>
        rw [rehash_loop_some_ok new_cap e rest acc acc2 hloop] at h
        refine ih acc2 acc' h (hashOk_cons _ _ hold) ?_
        exact rh_insert_loop_hashOk new_cap new_cap acc e _ _ acc2 hloop hacc
          (hold e (List.mem_cons_self _ _))

theorem put_insert_fail (t : CellTable) (k : Point2D) (hv : Nat) (v : Cell)
    (idx : Nat)
    (h : rh_insert_loop t.num_buckets t.buckets
      { key := k, value := v, hash_val := hv } idx 0 t.num_buckets = none) :
    put_insert t k hv v idx = none := by
  rw [put_insert]
  rw [h]

theorem rehash_fail (t : CellTable)
    (h : rehash_loop (t.num_buckets * 2) t.buckets
      (List.replicate (t.num_buckets * 2) none) = none) :
    rehash t = none := by
  rw [rehash]
  rw [h]

theorem cell_table_put_growfail (t : CellTable) (k : Point2D) (v : Cell)
    (h : find_elem t k (bucket_idx (hash_point2d k) t.num_buckets) = none)
    (hload : load_exceeded t) (hre : rehash t = none) :
    cell_table_put true t k v = none := by
  rw [cell_table_put]
  rw [h]
  dsimp only
  rw [if_pos hload]
  rw [hre]
  simp

/-- Every table reachable through the operations the source implements —
growth included — has a power-of-two capacity and correctly cached hashes
in every occupied slot. -/
theorem reachable_basic (t : CellTable) (h : Reachable t) :
    (∃ k, t.num_buckets = 2 ^ k) ∧ hashOk t.buckets := by
  induction h with
  | create n lf t hc =>
    have hwf := cell_table_create_wf n lf t hc
    exact ⟨hwf.hpow, hwf.hhash⟩
  | put t allocOk key value t' ok hr hput ih =>
    obtain ⟨hpow, hhash⟩ := ih
    cases hfind : find_elem t key
        (bucket_idx (hash_point2d key) t.num_buckets) with
    | some r =>
      obtain ⟨fi, fe⟩ := r
      obtain ⟨hfi, hfe, hkey⟩ := find_elem_sound t key fi fe hpow hfind
      rw [cell_table_put_update t allocOk key value fi fe hfind] at hput
      have h1 := (Option.some.inj hput).symm
      obtain rfl : t' = { t with
          buckets := t.buckets.set fi (some { fe with value := value }) } :=
        congrArg Prod.fst h1
      refine ⟨hpow, ?_⟩
      show hashOk (t.buckets.set fi (some { fe with value := value }))
      refine hashOk_set t.buckets fi _ hhash ?_
      intro e he
      obtain rfl : ({ fe with value := value } : CellTableElem) = e :=
        Option.some.inj he
      exact hhash fe (getD_mem t.buckets fi fe hfe)
    | none =>
      by_cases hload : load_exceeded t
      · cases allocOk with
        | false =>
          rw [cell_table_put_allocfail t key value hfind hload] at hput
          have h1 := (Option.some.inj hput).symm
          obtain rfl : t' = t := congrArg Prod.fst h1
          exact ⟨hpow, hhash⟩
        | true =>
          cases hloop : rehash_loop (t.num_buckets * 2) t.buckets
              (List.replicate (t.num_buckets * 2) none) with
          | none =>
            rw [cell_table_put_growfail t key value hfind hload
              (rehash_fail t hloop)] at hput
            cases hput
          | some nb =>
            rw [cell_table_put_grow t key value _ hfind hload
              (rehash_some t nb hloop)] at hput
            have hhash1 : hashOk nb :=
              rehash_loop_hashOk (t.num_buckets * 2) t.buckets _ nb hloop
                hhash (hashOk_replicate _)
            have hpow1 : ∃ j, t.num_buckets * 2 = 2 ^ j := by
              obtain ⟨j, hj⟩ := hpow
              exact ⟨j + 1, by rw [hj]; ring⟩
            cases hloop2 : rh_insert_loop (t.num_buckets * 2) nb
                { key := key, value := value, hash_val := hash_point2d key }
                (bucket_idx (hash_point2d key) t.num_buckets) 0
                (t.num_buckets * 2) with
            | none =>
              rw [put_insert_fail
                ({ t with num_buckets := t.num_buckets * 2, buckets := nb })
                key (hash_point2d key) value
                (bucket_idx (hash_point2d key) t.num_buckets)
                hloop2] at hput
              cases hput
            | some bs2 =>
              rw [put_insert_some
                ({ t with num_buckets := t.num_buckets * 2, buckets := nb })
                key (hash_point2d key) value
                (bucket_idx (hash_point2d key) t.num_buckets) bs2
                hloop2] at hput
              have h1 := (Option.some.inj hput).symm
              obtain rfl := congrArg Prod.fst h1
              refine ⟨hpow1, ?_⟩
              show hashOk bs2
              exact rh_insert_loop_hashOk _ _ _ _ _ _ bs2 hloop2 hhash1 rfl
      · rw [cell_table_put_nogrow t allocOk key value hfind hload] at hput
        cases hloop2 : rh_insert_loop t.num_buckets t.buckets
            { key := key, value := value, hash_val := hash_point2d key }
            (bucket_idx (hash_point2d key) t.num_buckets) 0
            t.num_buckets with
        | none =>
          rw [put_insert_fail t key (hash_point2d key) value _
            hloop2] at hput
          cases hput
        | some bs2 =>
          rw [put_insert_some t key (hash_point2d key) value _ bs2
            hloop2] at hput
          have h1 := (Option.some.inj hput).symm
          obtain rfl := congrArg Prod.fst h1
          refine ⟨hpow, ?_⟩
          show hashOk bs2
          exact rh_insert_loop_hashOk _ _ _ _ _ _ bs2 hloop2 hhash rfl
  | clear t hr ih =>
    obtain ⟨hpow, _⟩ := ih
    refine ⟨hpow, ?_⟩
    intro e he
    have he2 : some e ∈ t.buckets.map
        (fun _ => (none : Option CellTableElem)) := he
    rw [List.mem_map] at he2
    obtain ⟨a, _, ha⟩ := he2
    cases ha

/-- Complete case analysis of `cell_table_put` on a well-formed table: the
call always returns, it reports failure exactly when the key is absent, the
load threshold is exceeded and the allocation for growth fails, and on that
failure the table is returned untouched. -/
theorem cell_table_put_total (t : CellTable) (allocOk : Bool) (k : Point2D)
    (v : Cell) (hwf : WF t) :
    ∃ t' ok, cell_table_put allocOk t k v = some (t', ok) ∧
      (ok = false ↔
        find_elem t k (bucket_idx (hash_point2d k) t.num_buckets) = none ∧
          load_exceeded t ∧ allocOk = false) ∧
      (ok = false → t' = t) := by
  obtain ⟨hlen, hpow, hcount, hlf0, hlf1, hhash, huniq, hrh, hfull⟩ := hwf
  have hc := cap_pos hpow
  cases hfind : find_elem t k (bucket_idx (hash_point2d k) t.num_buckets) with
  | some r =>
    obtain ⟨fi, fe⟩ := r
    refine ⟨{ t with
        buckets := t.buckets.set fi (some { fe with value := v }) }, true,
      cell_table_put_update t allocOk k v fi fe hfind, ?_, ?_⟩
    · constructor
      · intro h
        cases h
      · intro h1
        cases h1.1
    · intro h
      cases h
  | none =>
    by_cases hload : load_exceeded t
    · cases allocOk with
      | false =>
        refine ⟨t, false, cell_table_put_allocfail t k v hfind hload, ?_,
          fun _ => rfl⟩
        exact ⟨fun _ => ⟨rfl, hload, rfl⟩, fun _ => rfl⟩
      | true =>
        obtain ⟨bs1, hre, hlen1, hocc1⟩ := rehash_total t hlen hpow
        obtain ⟨j, hj⟩ := hpow
        have hp2 : ∃ j, t.num_buckets * 2 = 2 ^ j :=
          ⟨j + 1, by rw [hj]; ring⟩
        have hocc : numOcc bs1 < t.num_buckets * 2 := by
          have h1 := numOcc_le_length t.buckets
          omega
        obtain ⟨j2, hj2, hje2⟩ := exists_empty_of_numOcc_lt bs1 (by omega)
        have hidx2 : bucket_idx (hash_point2d k) t.num_buckets <
            t.num_buckets * 2 := by
          have := bucket_idx_lt (hash_point2d k) ⟨j, hj⟩
          omega
        obtain ⟨r, hr, hre2⟩ := offset_exists
          (bucket_idx (hash_point2d k) t.num_buckets) j2
          (t.num_buckets * 2) (by omega) (by omega) hidx2
        obtain ⟨bs2, hloop, hlen2, hcons⟩ := rh_insert_loop_basic
          (t.num_buckets * 2) hp2 (t.num_buckets * 2) bs1
          { key := k, value := v, hash_val := hash_point2d k }
          (bucket_idx (hash_point2d k) t.num_buckets) 0 hlen1 hidx2
          ⟨r, by omega, by rw [hre2]; exact hje2⟩
        refine ⟨{ buckets := bs2, num_buckets := t.num_buckets * 2, num_elems := t.num_elems + 1, load_factor := t.load_factor }, true, ?_, ?_, ?_⟩
        · rw [cell_table_put_grow t k v _ hfind hload hre]
          exact put_insert_some
            ({ t with num_buckets := t.num_buckets * 2, buckets := bs1 })
            k (hash_point2d k) v
            (bucket_idx (hash_point2d k) t.num_buckets) bs2 hloop
        · constructor
          · intro h
            cases h
          · intro h1
            cases h1.2.2
        · intro h
          cases h
    · have hlt : t.num_elems < t.num_buckets :=
        count_lt_of_not_exceeded t hlf1 hc hload
      obtain ⟨j2, hj2, hje2⟩ := exists_empty_of_numOcc_lt t.buckets
        (by omega)
      have hidx : bucket_idx (hash_point2d k) t.num_buckets <
          t.num_buckets := bucket_idx_lt _ hpow
      obtain ⟨r, hr, hre2⟩ := offset_exists
        (bucket_idx (hash_point2d k) t.num_buckets) j2 t.num_buckets hc
        (by omega) hidx
      obtain ⟨bs2, hloop, hlen2, hcons⟩ := rh_insert_loop_basic t.num_buckets
        hpow t.num_buckets t.buckets
        { key := k, value := v, hash_val := hash_point2d k }
        (bucket_idx (hash_point2d k) t.num_buckets) 0 hlen hidx
        ⟨r, by omega, by rw [hre2]; exact hje2⟩
      refine ⟨{ t with buckets := bs2, num_elems := t.num_elems + 1 }, true, ?_, ?_, ?_⟩
      · rw [cell_table_put_nogrow t allocOk k v hfind hload]
        exact put_insert_some t k (hash_point2d k) v
          (bucket_idx (hash_point2d k) t.num_buckets) bs2 hloop
      · constructor
        · intro h
          cases h
        · intro h1
          exact absurd h1.2.1 hload
      · intro h
        cases h

/-! ### Light lookup facts (no invariants assumed) -/

theorem getD_some_lt_length :
    ∀ (bs : List (Option CellTableElem)) (i : Nat) (e : CellTableElem),
      bs.getD i none = some e → i < bs.length := by
  intro bs
  induction bs with
  | nil =>
    intro i e h
    simp [List.getD] at h
  | cons a bs ih =>
    intro i e h
    cases i with
    | zero => simp
    | succ i =>
      have h2 := ih i e h
      simp only [List.length_cons]
      omega

/-- Whatever `find_elem_aux` returns was read from the bucket array and
carries the searched key — with no assumption on the table. -/
theorem find_elem_aux_getD (t : CellTable) (key : Point2D) :
    ∀ (fuel idx dist fi : Nat) (fe : CellTableElem),
      find_elem_aux t key idx dist fuel = some (fi, fe) →
      t.buckets.getD fi none = some fe ∧ fe.key = key := by
  intro fuel
  induction fuel with
  | zero =>
    intro idx dist fi fe h
    rw [find_elem_aux_zero] at h
    cases h
  | succ fuel ih =>
    intro idx dist fi fe h
    cases hgd : t.buckets.getD idx none with
    | none =>
      rw [find_elem_aux_empty t key idx dist fuel hgd] at h
      cases h
    | some elem =>
      by_cases hcmp : point2d_cmp elem.key key = 0
      · rw [find_elem_aux_found t key idx dist fuel elem hgd hcmp] at h
        have h2 := Option.some.inj h
        have hfi : fi = idx := (congrArg Prod.fst h2).symm
        have hfe2 : fe = elem := (congrArg Prod.snd h2).symm
        subst hfi
        subst hfe2
        exact ⟨hgd, (point2d_cmp_eq_zero fe.key key).mp hcmp⟩
      · by_cases hpd : probe_dist elem idx t.num_buckets < dist
        · rw [find_elem_aux_early t key idx dist fuel elem hgd hcmp hpd] at h
          cases h
        · rw [find_elem_aux_step t key idx dist fuel elem hgd hcmp hpd] at h
          exact ih _ _ _ _ h

theorem find_elem_getD (t : CellTable) (key : Point2D) (s fi : Nat)
    (fe : CellTableElem) (h : find_elem t key s = some (fi, fe)) :
    t.buckets.getD fi none = some fe ∧ fe.key = key :=
  find_elem_aux_getD t key t.num_buckets s 0 fi fe h

/-- The lookup walk runs at most `fuel` iterations. -/
theorem find_elem_iters_le (t : CellTable) (key : Point2D) :
    ∀ (fuel idx dist : Nat), find_elem_iters t key idx dist fuel ≤ fuel := by
  intro fuel
  induction fuel with
  | zero =>
    intro idx dist
    rw [find_elem_iters]
  | succ fuel ih =>
    intro idx dist
    cases hgd : t.buckets.getD idx none with
    | none =>
      have h1 : find_elem_iters t key idx dist (fuel + 1) = 0 := by
        simp only [find_elem_iters]
        rw [hgd]
      omega
    | some e =>
      by_cases hcmp : point2d_cmp e.key key = 0
      · have h1 : find_elem_iters t key idx dist (fuel + 1) = 1 := by
          simp only [find_elem_iters]
          rw [hgd]
          dsimp only
          rw [if_pos hcmp]
        omega
      · by_cases hpd : probe_dist e idx t.num_buckets < dist
        · have h1 : find_elem_iters t key idx dist (fuel + 1) = 1 := by
            simp only [find_elem_iters]
            rw [hgd]
            dsimp only
            rw [if_neg hcmp, if_pos hpd]
          omega
        · have h1 : find_elem_iters t key idx dist (fuel + 1) =
              1 + find_elem_iters t key (probe idx t.num_buckets)
                (dist + 1) fuel := by
            simp only [find_elem_iters]
            rw [hgd]
            dsimp only
            rw [if_neg hcmp, if_neg hpd]
          have h2 := ih (probe idx t.num_buckets) (dist + 1)
          omega



/-!
## The claims
-/

/-- **C1.** On a well-formed table, `cell_table_remove` (modelled from the
spec's backward-shift deletion, which completes the source's TODO stub)
returns the value stored under the key; when the key is present the element
count drops by exactly one and the key is no longer contained; when the key
is absent it returns `NULL` and leaves the table unchanged. -/
theorem cell_table_remove_spec (t : CellTable) (k : Point2D) (hwf : WF t) :
    ∃ t', cell_table_remove t k = some (t', cell_table_get t k) ∧
      (cell_table_contains t k = true →
        cell_table_size t = cell_table_size t' + 1 ∧
        cell_table_contains t' k = false) ∧
      (cell_table_contains t k = false → t' = t) := by
  obtain ⟨t2, h1, hwf2, h3, h4⟩ := cell_table_remove_wf t k hwf
  refine ⟨t2, h1, ?_, h4⟩
  intro hcon
  obtain ⟨hsz, hc2⟩ := h3 hcon
  refine ⟨?_, hc2⟩
  have hne : 1 ≤ t.num_elems := by
    rw [cell_table_contains] at hcon
    cases hfind : find_elem t k
        (bucket_idx (hash_point2d k) t.num_buckets) with
    | none =>
      rw [hfind] at hcon
      cases hcon
    | some r =>
      obtain ⟨fi, fe⟩ := r
      obtain ⟨hfe, -⟩ := find_elem_getD t k _ fi fe hfind
      have h5 := countP_pos_of_getD (fun s => s.isSome) t.buckets fi
        (getD_some_lt_length t.buckets fi fe hfe) (by rw [hfe]; rfl)
      have hcount := hwf.hcount
      rw [numOcc] at hcount
      omega
  show t.num_elems = t2.num_elems + 1
  omega

theorem cell_table_remove_spec_witness :
    ∃ t', cell_table_remove tbl1A pA = some (t', cell_table_get tbl1A pA) ∧
      (cell_table_contains tbl1A pA = true →
        cell_table_size tbl1A = cell_table_size t' + 1 ∧
        cell_table_contains t' pA = false) ∧
      (cell_table_contains tbl1A pA = false → t' = tbl1A) :=
  cell_table_remove_spec tbl1A pA
    (cell_table_put_wf tbl1 true pA 10 tbl1A true
      (cell_table_create_wf 1 threeQuarters tbl1 (by decide))
      (Or.inl (by decide)) (by decide))

/-- **C8.** On every table state and key — no invariant assumed — the lookup
walk runs at most `num_buckets` iterations, and reports "not found" on
meeting an empty slot, or a resident of a different key whose probe distance
is strictly below the number of probe steps taken so far. -/
theorem lookup_walk_bounded (t : CellTable) (k : Point2D) :
    find_elem_iters t k (bucket_idx (hash_point2d k) t.num_buckets) 0
        t.num_buckets ≤ t.num_buckets ∧
    (∀ idx dist fuel, t.buckets.getD idx none = none →
      find_elem_aux t k idx dist fuel = none) ∧
    (∀ idx dist fuel (e : CellTableElem), t.buckets.getD idx none = some e →
      ¬ point2d_cmp e.key k = 0 →
      probe_dist e idx t.num_buckets < dist →
      find_elem_aux t k idx dist fuel = none) := by
  refine ⟨find_elem_iters_le t k _ _ _, ?_, ?_⟩
  · intro idx dist fuel hgd
    cases fuel with
    | zero => exact find_elem_aux_zero t k idx dist
    | succ fuel => exact find_elem_aux_empty t k idx dist fuel hgd
  · intro idx dist fuel e hgd hcmp hpd
    cases fuel with
    | zero => exact find_elem_aux_zero t k idx dist
    | succ fuel => exact find_elem_aux_early t k idx dist fuel e hgd hcmp hpd

/-- **C9.** A `put` on a key already present always succeeds and only
rewrites the value of the found slot: no growth, no rehash, no other slot,
count or capacity change — even on an overloaded table — because the update
path returns before the load-factor check. -/
theorem update_in_place_spec (t : CellTable) (allocOk : Bool) (k : Point2D)
    (v : Cell) (fi : Nat) (fe : CellTableElem)
    (hfind : find_elem t k (bucket_idx (hash_point2d k) t.num_buckets) =
      some (fi, fe)) :
    ∃ t', cell_table_put allocOk t k v = some (t', true) ∧
      t'.num_buckets = t.num_buckets ∧
      t'.num_elems = t.num_elems ∧
      t'.load_factor = t.load_factor ∧
      t'.buckets.getD fi none = some { fe with value := v } ∧
      ∀ j, j ≠ fi → t'.buckets.getD j none = t.buckets.getD j none := by
  obtain ⟨hfe, -⟩ := find_elem_getD t k _ fi fe hfind
  have hlt := getD_some_lt_length t.buckets fi fe hfe
  refine ⟨{ t with
      buckets := t.buckets.set fi (some { fe with value := v }) },
    cell_table_put_update t allocOk k v fi fe hfind, rfl, rfl, rfl, ?_, ?_⟩
  · show (t.buckets.set fi (some { fe with value := v })).getD fi none =
      some { fe with value := v }
    exact getD_set_self t.buckets fi _ hlt
  · intro j hj
    show (t.buckets.set fi (some { fe with value := v })).getD j none =
      t.buckets.getD j none
    exact getD_set_ne t.buckets fi j _ (fun hh => hj hh.symm)

theorem update_in_place_spec_witness :
    ∃ t', cell_table_put true tbl1A pA 99 = some (t', true) ∧
      t'.num_buckets = tbl1A.num_buckets ∧
      t'.num_elems = tbl1A.num_elems ∧
      t'.load_factor = tbl1A.load_factor ∧
      t'.buckets.getD 0 none = some { elemA with value := 99 } ∧
      ∀ j, j ≠ 0 → t'.buckets.getD j none = tbl1A.buckets.getD j none :=
  update_in_place_spec tbl1A true pA 99 0 elemA (by decide)

/-- **C10.** In every table state reachable by `create`, `put` (growth
included) and `clear`, the cached hash of every occupied slot is the FNV-1
hash of the key stored in that same slot. -/
theorem cached_hash_invariant (t : CellTable) (h : Reachable t) :
    ∀ i (e : CellTableElem), t.buckets.getD i none = some e →
      e.hash_val = hash_point2d e.key := by
  intro i e he
  exact (reachable_basic t h).2 e (getD_mem t.buckets i e he)

theorem cached_hash_invariant_witness :
    elemA.hash_val = hash_point2d elemA.key :=
  cached_hash_invariant tbl1A
    (Reachable.put tbl1 true pA 10 tbl1A true
      (Reachable.create 1 threeQuarters tbl1 (by decide)) (by decide))
    0 elemA (by decide)

/-- **C3.** `ceil_pow2` rounds *down* to a power of two — the loop clears
low bits until a power of two remains — so `ceil_pow2 5 = 4` (not `8`), and
`cell_table_create(5, 0.75)` yields capacity `4`, contradicting the claimed
round-up. -/
theorem ceil_pow2_rounds_down :
    ceil_pow2 5 = 4 ∧
    Option.map (fun t => t.num_buckets) (cell_table_create 5 threeQuarters) =
      some 4 := by
  exact ⟨by decide, by decide⟩

/-- **C5.** Round-trip failure across growth: after `create(2)` and three
successful puts (`pA`, `pB`, then `pC`, whose insertion triggers growth),
`get(pC)` — a key never overwritten nor removed — returns `NULL`, although
`size` counts it: the post-growth insertion starts from the bucket index
computed with the pre-growth mask. -/
theorem roundtrip_broken_after_growth :
    Option.map (fun t => cell_table_get t pC)
      (put_seq (cell_table_create 2 threeQuarters)
        [(pA, 10), (pB, 20), (pC, 30)]) = some none ∧
    Option.map (fun t => cell_table_size t)
      (put_seq (cell_table_create 2 threeQuarters)
        [(pA, 10), (pB, 20), (pC, 30)]) = some 3 := by
  exact ⟨by decide, by decide⟩

/-- **C6.** Duplicate key: in the grown table of C5 the entry for `pC` is
stored but not findable, so a repeated `put(pC, 99)` inserts a second entry
with the same key instead of updating in place — `size()` grows to `4` and
two slots hold `pC`. -/
theorem duplicate_key_after_growth :
    Option.map (fun p => (cell_table_size p.1, countKey p.1.buckets pC))
      ((put_seq (cell_table_create 2 threeQuarters)
          [(pA, 10), (pB, 20), (pC, 30)]).bind
        (fun t => cell_table_put true t pC 99)) = some (4, 2) := by
  decide

/-- **C2 (counterexample).** `create(1, 0.75)` followed by one successful
`put` leaves a table with load `1 > 3/4` and unchanged capacity `1`: the
claimed post-insertion invariant `count / capacity ≤ max_load` fails,
because the growth check compares the load *before* the pending
insertion. -/
theorem load_invariant_counterexample :
    ∃ t, put_seq (cell_table_create 1 threeQuarters) [(pA, 10)] = some t ∧
      t.num_buckets = 1 ∧ current_load t > t.load_factor := by
  refine ⟨tbl1A, by decide, rfl, ?_⟩
  rw [← load_exceeded_iff tbl1A (by decide)]
  decide

/-- **C2 (amended).** Growth triggers exactly when `count / capacity >
max_load` *before* the pending insertion — not when `(count + 1) / capacity`
would exceed it: on a missing key an overloaded well-formed table doubles
its capacity, and a non-overloaded one inserts without growth, so
`count / capacity ≤ max_load` holds *before* every non-growth insertion
(equivalently `(count − 1) / capacity ≤ max_load` after it). -/
theorem growth_trigger_spec (t : CellTable) (k : Point2D) (v : Cell)
    (hwf : WF t)
    (hmiss : find_elem t k (bucket_idx (hash_point2d k) t.num_buckets) =
      none) :
    ∃ t', cell_table_put true t k v = some (t', true) ∧
      (load_exceeded t → t'.num_buckets = t.num_buckets * 2) ∧
      (¬ load_exceeded t → t'.num_buckets = t.num_buckets ∧
        t'.num_elems = t.num_elems + 1 ∧
        current_load t ≤ t.load_factor) := by
  obtain ⟨hlen, hpow, hcount, hlf0, hlf1, hhash, huniq, hrh, hfull⟩ := hwf
  have hc := cap_pos hpow
  by_cases hload : load_exceeded t
  · obtain ⟨bs1, hre, hlen1, hocc1⟩ := rehash_total t hlen hpow
    obtain ⟨j, hj⟩ := hpow
    have hp2 : ∃ j, t.num_buckets * 2 = 2 ^ j := ⟨j + 1, by rw [hj]; ring⟩
    have hocc : numOcc bs1 < t.num_buckets * 2 := by
      have h1 := numOcc_le_length t.buckets
      omega
    obtain ⟨j2, hj2, hje2⟩ := exists_empty_of_numOcc_lt bs1 (by omega)
    have hidx2 : bucket_idx (hash_point2d k) t.num_buckets <
        t.num_buckets * 2 := by
      have := bucket_idx_lt (hash_point2d k) ⟨j, hj⟩
      omega
    obtain ⟨r, hr, hre2⟩ := offset_exists
      (bucket_idx (hash_point2d k) t.num_buckets) j2 (t.num_buckets * 2)
      (by omega) (by omega) hidx2
    obtain ⟨bs2, hloop, hlen2, hcons⟩ := rh_insert_loop_basic
      (t.num_buckets * 2) hp2 (t.num_buckets * 2) bs1
      { key := k, value := v, hash_val := hash_point2d k }
      (bucket_idx (hash_point2d k) t.num_buckets) 0 hlen1 hidx2
      ⟨r, by omega, by rw [hre2]; exact hje2⟩
    refine ⟨{ buckets := bs2, num_buckets := t.num_buckets * 2, num_elems := t.num_elems + 1, load_factor := t.load_factor }, ?_, fun _ => rfl, fun h => absurd hload h⟩
    rw [cell_table_put_grow t k v _ hmiss hload hre]
    exact put_insert_some
      ({ t with num_buckets := t.num_buckets * 2, buckets := bs1 })
      k (hash_point2d k) v (bucket_idx (hash_point2d k) t.num_buckets)
      bs2 hloop
  · have hlt : t.num_elems < t.num_buckets :=
      count_lt_of_not_exceeded t hlf1 hc hload
    obtain ⟨j2, hj2, hje2⟩ := exists_empty_of_numOcc_lt t.buckets (by omega)
    have hidx : bucket_idx (hash_point2d k) t.num_buckets < t.num_buckets :=
      bucket_idx_lt _ hpow
    obtain ⟨r, hr, hre2⟩ := offset_exists
      (bucket_idx (hash_point2d k) t.num_buckets) j2 t.num_buckets hc
      (by omega) hidx
    obtain ⟨bs2, hloop, hlen2, hcons⟩ := rh_insert_loop_basic t.num_buckets
      hpow t.num_buckets t.buckets
      { key := k, value := v, hash_val := hash_point2d k }
      (bucket_idx (hash_point2d k) t.num_buckets) 0 hlen hidx
      ⟨r, by omega, by rw [hre2]; exact hje2⟩
    refine ⟨{ t with buckets := bs2, num_elems := t.num_elems + 1 }, ?_,
      fun h => absurd h hload, fun _ => ⟨rfl, rfl, ?_⟩⟩
    · rw [cell_table_put_nogrow t true k v hmiss hload]
      exact put_insert_some t k (hash_point2d k) v
        (bucket_idx (hash_point2d k) t.num_buckets) bs2 hloop
    · rw [load_exceeded_iff t hc] at hload
      exact le_of_not_lt hload

theorem growth_trigger_spec_witness :
    ∃ t', cell_table_put true tbl1A pB 20 = some (t', true) ∧
      (load_exceeded tbl1A → t'.num_buckets = tbl1A.num_buckets * 2) ∧
      (¬ load_exceeded tbl1A → t'.num_buckets = tbl1A.num_buckets ∧
        t'.num_elems = tbl1A.num_elems + 1 ∧
        current_load tbl1A ≤ tbl1A.load_factor) :=
  growth_trigger_spec tbl1A pB 20
    (cell_table_put_wf tbl1 true pA 10 tbl1A true
      (cell_table_create_wf 1 threeQuarters tbl1 (by decide))
      (Or.inl (by decide)) (by decide))
    (by decide)

/-- **C4 (counterexample).** A table reached by four ordinary puts (no
growth, no deletion, all in-budget) has consecutive occupied slots with
probe distances `2` then `0`: walking forward through consecutive occupied
slots the probe distance is *not* non-decreasing. -/
theorem probe_nondecreasing_counterexample :
    ∃ t, Reachable t ∧ ¬ probe_nondecreasing t := by
  refine ⟨tbl8_4, ?_, ?_⟩
  · have h0 : Reachable tbl8_0 :=
      Reachable.create 8 threeQuarters tbl8_0 (by decide)
    have h1 : Reachable tbl8_1 :=
      Reachable.put tbl8_0 true pC 1 tbl8_1 true h0 (by decide)
    have h2 : Reachable tbl8_2 :=
      Reachable.put tbl8_1 true pD 2 tbl8_2 true h1 (by decide)
    have h3 : Reachable tbl8_3 :=
      Reachable.put tbl8_2 true pE 3 tbl8_3 true h2 (by decide)
    exact Reachable.put tbl8_3 true pA 4 tbl8_4 true h3 (by decide)
  · intro h
    have h2 := h 4 (by decide)
      { key := pE, value := 3, hash_val := 1264972490 }
      { key := pA, value := 4, hash_val := 2615243109 }
      (by decide) (by decide)
    exact absurd h2 (by decide)

/-- **C4 (amended).** In every state reachable by `create`, non-growth
`put`s, spec-modelled deletions and `clear`, the Robin Hood invariant holds
in its correct local form: every occupied slot away from its ideal bucket is
directly preceded by an occupied slot whose probe distance is at most one
smaller — probe distances drop only where a new probe chain starts.
(Growth-path puts are excluded: the post-growth insertion starts from a
stale index, see C5/C6.) -/
theorem robin_hood_invariant_preserved (t : CellTable)
    (h : ReachableNG t) : rhInv t.buckets t.num_buckets :=
  (reachableNG_wf t h).hrh

theorem robin_hood_invariant_preserved_witness :
    rhInv tbl1A.buckets tbl1A.num_buckets :=
  robin_hood_invariant_preserved tbl1A
    (ReachableNG.put tbl1 true pA 10 tbl1A
      (ReachableNG.create 1 threeQuarters tbl1 (by decide))
      (by decide) (Or.inl (by decide)))

/-- **C7.** On a well-formed table `put` always returns; it reports failure
exactly when the key is absent, the load threshold is exceeded and the
allocation for growth fails (`allocOk = false`); on that failure the
returned table is the untouched prior state. -/
theorem put_failure_spec (t : CellTable) (allocOk : Bool) (k : Point2D)
    (v : Cell) (hwf : WF t) :
    ∃ t' ok, cell_table_put allocOk t k v = some (t', ok) ∧
      (ok = false ↔
        find_elem t k (bucket_idx (hash_point2d k) t.num_buckets) = none ∧
          load_exceeded t ∧ allocOk = false) ∧
      (ok = false → t' = t) :=
  cell_table_put_total t allocOk k v hwf

theorem put_failure_spec_witness :
    ∃ t' ok, cell_table_put false tbl1A pB 20 = some (t', ok) ∧
      (ok = false ↔
        find_elem tbl1A pB (bucket_idx (hash_point2d pB) tbl1A.num_buckets) =
          none ∧ load_exceeded tbl1A ∧ false = false) ∧
      (ok = false → t' = tbl1A) :=
  put_failure_spec tbl1A false pB 20
    (cell_table_put_wf tbl1 true pA 10 tbl1A true
      (cell_table_create_wf 1 threeQuarters tbl1 (by decide))
      (Or.inl (by decide)) (by decide))
